import Mathlib

set_option maxHeartbeats 2000000
set_option maxRecDepth 4000

/-!
Verification of the Confuc-IO compiler core: a shallow embedding of the
language's mapping tables (`confucio_mappings.py`), AST (`confucio_ast.py`),
semantic analyzer (`confucio_semantic.py`) and LLVM-IR code generator
(`confucio_codegen.py`, on top of llvmlite's IR builder), together with
theorems about the behaviour of these components.
-/

namespace ConfucIO

/-! ## Association-list helpers, mirroring Python `dict` behaviour -/

/-- Lookup in an association list, mirroring Python `dict.get` /
`name in dict` (keys are unique in all the lists we build). -/
def alookup {α : Type} : List (String × α) → String → Option α
  | [], _ => none
  | (k', v) :: rest, k => if k' = k then some v else alookup rest k

/-- Python dict assignment `d[k] = v`: replace the value of an existing key
in place, otherwise append the new pair at the end (insertion order). -/
def dinsert {α : Type} : List (String × α) → String → α → List (String × α)
  | [], k, v => [(k, v)]
  | (k', v') :: rest, k, v =>
      if k' = k then (k, v) :: rest else (k', v') :: dinsert rest k v

/-! ## Language Definition (`confucio_mappings.py`) -/

/-- Keyword mappings, Confuc-IO surface keyword to conventional keyword. -/
def KEYWORD_MAPPINGS : List (String × String) :=
  [("func", "if"), ("for", "func"), ("return", "while"), ("if", "for"), ("*", "return")]

/-- Type mappings, Confuc-IO surface type to conventional type. -/
def TYPE_MAPPINGS : List (String × String) :=
  [("Float", "int"), ("int", "string"), ("String", "float"), ("While", "bool")]

/-- Reverse type mapping, written out literally as in the source. -/
def TYPE_REVERSE : List (String × String) :=
  [("int", "Float"), ("string", "int"), ("float", "String"), ("bool", "While")]

/-- Operator mappings, Confuc-IO surface operator to conventional operator. -/
def OPERATOR_MAPPINGS : List (String × String) :=
  [("/", "+"), ("~", "-"), ("+", "/"), ("Bool", "*"),
   ("=", ">"), ("#", "<"), ("@@", "=="), ("@", "=")]

/-- Delimiter mappings, Confuc-IO surface delimiter to conventional delimiter. -/
def DELIMITER_MAPPINGS : List (String × String) :=
  [("\x7b", "("), ("]", ")"), ("(", "["), ("\x7d", "]"), ("[", "\x7b"), (")", "\x7d")]

/-- The Python dict comprehension that reverses a mapping table:
fold of dict assignment over the swapped pairs. -/
def buildReverse (l : List (String × String)) : List (String × String) :=
  l.foldl (fun acc p => dinsert acc p.2 p.1) []

/-- Reverse keyword mapping built by comprehension, as in the source. -/
def KEYWORD_REVERSE : List (String × String) := buildReverse KEYWORD_MAPPINGS

/-- Reverse operator mapping built by comprehension, as in the source. -/
def OPERATOR_REVERSE : List (String × String) := buildReverse OPERATOR_MAPPINGS

/-- Reverse delimiter mapping built by comprehension, as in the source. -/
def DELIMITER_REVERSE : List (String × String) := buildReverse DELIMITER_MAPPINGS

/-- The designated entry-point function name. -/
def MAIN_FUNCTION_NAME : String := "side"

/-! ## AST model (`confucio_ast.py`) -/

/-- Literal payloads for the four literal kinds `int`, `float`, `string`,
`bool`.  Float payloads are carried symbolically as integers: no arithmetic
is ever performed on them by the analyzer or the generator. -/
inductive LitVal
  | vInt (n : Int)
  | vFloat (n : Int)
  | vStr (s : String)
  | vBool (b : Bool)
deriving DecidableEq, Repr

/-- Expression nodes. -/
inductive Expr
  | lit (v : LitVal)
  | ident (name : String)
  | binop (op : String) (l r : Expr)
  | unop (op : String) (operand : Expr)
  | call (fname : String) (args : List Expr)
deriving Repr

/-- Statement nodes. -/
inductive Stmt
  | varDecl (ty name : String) (ini : Option Expr)
  | assign (name : String) (value : Expr)
  | sif (cond : Expr) (thenB : List Stmt) (elseB : Option (List Stmt))
  | swhile (cond : Expr) (body : List Stmt)
  | sfor (ini : Stmt) (cond : Expr) (upd : Stmt) (body : List Stmt)
  | sreturn (value : Option Expr)
  | sprint (exprs : List Expr)
  | sinput (varName : String)
  | sexpr (e : Expr)
deriving Repr

/-- Function parameter. -/
structure Param where
  paramType : String
  name : String
  line : Nat := 0
deriving Repr

/-- Function definition. -/
structure FunctionDef where
  returnType : String
  name : String
  params : List Param
  body : List Stmt
deriving Repr

/-- A whole program: an ordered sequence of function definitions. -/
structure Program where
  functions : List FunctionDef
deriving Repr

/-! ## Semantic analyzer (`confucio_semantic.py`) -/

/-- The kinds of `SemanticError` the analyzer raises (in the Python source
these are distinguished by message text). -/
inductive SemErr
  | duplicateVariable (name : String)
  | duplicateFunction (name : String)
  | undeclaredIdentifier (name : String)
  | useBeforeInit (name : String)
  | typeMismatch (expected got : String)
  | arityMismatch (fname : String)
  | unknownType (ty : String)
  | noVisitor (nodeType : String)
  | missingMain
  | mainHasParameters
deriving DecidableEq, Repr

/-- Entry of the symbol table (`SymbolInfo`). -/
structure SymbolInfo where
  ty : String
  isInit : Bool
  line : Nat
deriving DecidableEq, Repr

/-- The symbol table: a flat variable map and a separate function map,
both insertion-ordered as Python dicts are. -/
structure SymTab where
  symbols : List (String × SymbolInfo)
  functions : List (String × FunctionDef)

/-- `SymbolTable.declare_variable`: fails if the name already exists in the
variable map, otherwise inserts a fresh entry. -/
def SymTab.declareVariable (st : SymTab) (name ty : String) (ini : Bool) (line : Nat) :
    Except SemErr SymTab :=
  match alookup st.symbols name with
  | some _ => .error (.duplicateVariable name)
  | none => .ok { st with symbols := st.symbols ++ [(name, ⟨ty, ini, line⟩)] }

/-- `SymbolTable.declare_function`: fails if the name already exists in the
function map, otherwise inserts the definition. -/
def SymTab.declareFunction (st : SymTab) (f : FunctionDef) : Except SemErr SymTab :=
  match alookup st.functions f.name with
  | some _ => .error (.duplicateFunction f.name)
  | none => .ok { st with functions := st.functions ++ [(f.name, f)] }

/-- `SymbolTable.mark_initialized`: flip the flag of an existing entry in
place; silently do nothing for an unknown name. -/
def SymTab.markInitialized (st : SymTab) (name : String) : SymTab :=
  { st with symbols := st.symbols.map fun kv =>
      if kv.1 = name then (kv.1, { kv.2 with isInit := true }) else kv }

/-- `SymbolTable.is_declared`. -/
def SymTab.isDeclared (st : SymTab) (name : String) : Bool :=
  (alookup st.symbols name).isSome

/-- `SymbolTable.is_initialized`: `false` for names that are not in the
table at all. -/
def SymTab.isInitialized (st : SymTab) (name : String) : Bool :=
  match alookup st.symbols name with
  | none => false
  | some info => info.isInit

/-- The Confuc-IO type name of a literal (`SemanticAnalyzer.visit_Literal`). -/
def literalTypeName : LitVal → String
  | .vInt _ => "Float"
  | .vFloat _ => "String"
  | .vStr _ => "int"
  | .vBool _ => "While"

/-- `SemanticAnalyzer.types_compatible`: exact equality, no coercion. -/
def typesCompatible (expected actual : String) : Bool := expected = actual

/-- Confuc-IO arithmetic-class surface operators. -/
def ARITH_OPS : List String := ["/", "~", "+", "Bool"]

/-- Confuc-IO comparison-class surface operators. -/
def COMP_OPS : List String := ["=", "#", "@@"]

mutual

/-- Expression visitor of the semantic analyzer: returns the Confuc-IO type
name of the expression, or fails.  A `UnaryOp` node has no visitor method
in the source and is rejected via reflection failure. -/
def visitExpr (st : SymTab) : Expr → Except SemErr String
  | .lit v => .ok (literalTypeName v)
  | .ident name =>
      if (alookup st.symbols name).isSome then
        match alookup st.symbols name with
        | some info =>
            if info.isInit then .ok info.ty else .error (.useBeforeInit name)
        | none => .error (.undeclaredIdentifier name)
      else .error (.undeclaredIdentifier name)
  | .binop op l r => do
      let lt ← visitExpr st l
      let rt ← visitExpr st r
      if ARITH_OPS.contains op then
        if typesCompatible lt rt then .ok lt else .error (.typeMismatch lt rt)
      else if COMP_OPS.contains op then .ok "While"
      else .ok lt
  | .unop _ _ => .error (.noVisitor "UnaryOp")
  | .call fname args =>
      match alookup st.functions fname with
      | none => .error (.undeclaredIdentifier fname)
      | some f =>
          if args.length = f.params.length then do
            let _ ← checkArgs st fname args f.params
            .ok f.returnType
          else .error (.arityMismatch fname)

/-- Argument type checking of `visit_FunctionCall`: visit each argument and
compare with the corresponding parameter type (`zip` semantics). -/
def checkArgs (st : SymTab) (fname : String) : List Expr → List Param → Except SemErr Unit
  | [], _ => .ok ()
  | _, [] => .ok ()
  | a :: args, p :: ps => do
      let at' ← visitExpr st a
      if typesCompatible p.paramType at' then checkArgs st fname args ps
      else .error (.typeMismatch p.paramType at')

end

/-- Visit a list of expressions for validity, discarding their types
(`visit_PrintStatement`). -/
def visitExprs (st : SymTab) : List Expr → Except SemErr Unit
  | [] => .ok ()
  | e :: es => do
      let _ ← visitExpr st e
      visitExprs st es

mutual

/-- Statement visitor of the semantic analyzer: threads the symbol table. -/
def visitStmt (st : SymTab) : Stmt → Except SemErr SymTab
  | .varDecl ty name ini =>
      match alookup TYPE_MAPPINGS ty with
      | none => .error (.unknownType ty)
      | some _ =>
          match ini with
          | some e => do
              let it ← visitExpr st e
              if typesCompatible ty it then st.declareVariable name ty true 0
              else .error (.typeMismatch ty it)
          | none => st.declareVariable name ty false 0
  | .assign name value =>
      if st.isDeclared name then do
        let vt ← visitExpr st value
        match alookup st.symbols name with
        | some info =>
            if typesCompatible info.ty vt then .ok (st.markInitialized name)
            else .error (.typeMismatch info.ty vt)
        | none => .error (.undeclaredIdentifier name)
      else .error (.undeclaredIdentifier name)
  | .sif cond thenB (some es) => do
      let _ ← visitExpr st cond
      let st₁ ← visitStmtList st thenB
      visitStmtList st₁ es
  | .sif cond thenB none => do
      let _ ← visitExpr st cond
      visitStmtList st thenB
  | .swhile cond body => do
      let _ ← visitExpr st cond
      visitStmtList st body
  | .sfor ini cond upd body => do
      let st₁ ← visitStmt st ini
      let _ ← visitExpr st₁ cond
      let st₂ ← visitStmt st₁ upd
      visitStmtList st₂ body
  | .sreturn value =>
      match value with
      | some e => do
          let _ ← visitExpr st e
          .ok st
      | none => .ok st
  | .sprint es => do
      let _ ← visitExprs st es
      .ok st
  | .sinput name =>
      if st.isDeclared name then .ok (st.markInitialized name)
      else .error (.undeclaredIdentifier name)
  | .sexpr e => do
      let _ ← visitExpr st e
      .ok st

/-- Visit the statements of a body in order, threading the table. -/
def visitStmtList (st : SymTab) : List Stmt → Except SemErr SymTab
  | [] => .ok st
  | s :: rest => do
      let st' ← visitStmt st s
      visitStmtList st' rest

end

/-- Declare the parameters of a function as already-initialized variables. -/
def declareParams : SymTab → List Param → Except SemErr SymTab
  | st, [] => .ok st
  | st, p :: ps => do
      let st' ← st.declareVariable p.name p.paramType true p.line
      declareParams st' ps

/-- Restore of the variable map after a function body
(`self.symbol_table.symbols = saved_variables`).  The Python save is a
shallow dict copy: the `SymbolInfo` objects are shared, so in-place
`mark_initialized` mutations made during the body remain visible through
the restored map for keys that existed before the call. -/
def restoreSymbols (saved after : List (String × SymbolInfo)) : List (String × SymbolInfo) :=
  saved.map fun kv =>
    match alookup after kv.1 with
    | some info => (kv.1, info)
    | none => kv

/-- `SemanticAnalyzer.analyze_function`: save the variable map, declare the
parameters, visit the body, then restore the saved map. -/
def analyzeFunction (st : SymTab) (f : FunctionDef) : Except SemErr SymTab := do
  let saved := st.symbols
  let st₁ ← declareParams st f.params
  let st₂ ← visitStmtList st₁ f.body
  .ok { st₂ with symbols := restoreSymbols saved st₂.symbols }

/-- First pass of `SemanticAnalyzer.analyze`: collect function declarations
and check the entry point's signature as it is encountered. -/
def pass1 : SymTab → Bool → List FunctionDef → Except SemErr (SymTab × Bool)
  | st, hasMain, [] => .ok (st, hasMain)
  | st, hasMain, f :: fs => do
      let st' ← st.declareFunction f
      if f.name = MAIN_FUNCTION_NAME then
        if f.params.isEmpty then pass1 st' true fs
        else .error .mainHasParameters
      else pass1 st' hasMain fs

/-- Second pass: analyze each function body in order. -/
def analyzeFunctions : SymTab → List FunctionDef → Except SemErr SymTab
  | st, [] => .ok st
  | st, f :: fs => do
      let st' ← analyzeFunction st f
      analyzeFunctions st' fs

/-- `SemanticAnalyzer.analyze`: both passes, with the entry-point existence
check in between.  Returns the final symbol-table state on success. -/
def analyze (p : Program) : Except SemErr SymTab := do
  let (st, hasMain) ← pass1 ⟨[], []⟩ false p.functions
  if hasMain then analyzeFunctions st p.functions else .error .missingMain

/-! ## Code generator (`confucio_codegen.py` over llvmlite's IR layer)

The generator is embedded together with the small slice of llvmlite it
drives: a module is a list of functions, a function a list of basic blocks
(lists of instructions), and the builder state is the index of the current
block.  llvmlite's `Block` records its terminator when one is emitted and
`IRBuilder._set_terminator` asserts that the block is not already
terminated, so emitting a second terminator into a block is a failure,
while ordinary instructions may be appended after a terminator unchecked. -/

/-- The kinds of failure of the code generator: `CodeGenError`s, Python
`KeyError` on the per-function variable dict, and the llvmlite builder
assertion on double termination. -/
inductive GenErr
  | unknownType (t : String)
  | unsupportedOperator (op : String)
  | unsupportedExpression
  | functionNotFound (name : String)
  | keyError (name : String)
  | assertTerminated
deriving DecidableEq, Repr

/-- LLVM value types used by the generator: `i1`, `i32`, `i64`, `double`
and the string pointer type `i8*`. -/
inductive LType
  | i1
  | i32
  | i64
  | double
  | ptr
deriving DecidableEq, Repr

/-- `CodeGenerator.get_llvm_type`: the Confuc-IO surface type names map to
i32 / i8* / double / i1; anything else raises `CodeGenError`. -/
def getLlvmType : String → Except GenErr LType
  | "Float" => .ok .i32
  | "int" => .ok .ptr
  | "String" => .ok .double
  | "While" => .ok .i1
  | t => .error (.unknownType t)

/-- Values handled by the generator: integer constants, (symbolic) double
constants, incoming function arguments, instruction results, and pointers
to named stack slots. -/
inductive LValue
  | cInt (ty : LType) (v : Int)
  | cDouble (v : Int)
  | argv (ty : LType) (i : Nat)
  | reg (ty : LType) (id : Nat)
  | slotv (name : String) (pointee : LType)
deriving DecidableEq, Repr

/-- The LLVM type of a value (slot pointers are typed pointers; the
generator only ever inspects the types of expression results, which are
never slot pointers, so them mapping to `ptr` is unreachable detail). -/
def LValue.lty : LValue → LType
  | .cInt t _ => t
  | .cDouble _ => .double
  | .argv t _ => t
  | .reg t _ => t
  | .slotv _ _ => .ptr

/-- IR instructions, with just enough payload to state the claims: block
targets are indices into the enclosing function's block list, string
globals are referenced by their counter value. -/
inductive Instr
  | alloca (pointee : LType) (name : String)
  | store (v : LValue) (slotName : String)
  | load (slotName : String)
  | binop (op : String) (l r : LValue)
  | icmp (pred : String) (l r : LValue)
  | fcall (fname : String) (args : List LValue)
  | zext (v : LValue)
  | bitcast (globalId : Nat)
  | br (target : Nat)
  | cbr (cond : LValue) (ifTrue ifFalse : Nat)
  | ret (v : LValue)
  | retVoid
deriving DecidableEq, Repr

/-- Terminator instructions: branches, conditional branches and returns. -/
def Instr.isTerminator : Instr → Bool
  | .br _ => true
  | .cbr _ _ _ => true
  | .ret _ => true
  | .retVoid => true
  | _ => false

/-- An emitted IR function: its LLVM-level name, types, and basic blocks. -/
structure LFunc where
  name : String
  retTy : LType
  paramTys : List LType
  blocks : List (List Instr)
deriving DecidableEq, Repr

/-- Registry entry for a generated function, stored under its original
Confuc-IO name: the LLVM name (the entry point is renamed `main`) and the
return type. -/
structure FuncRef where
  llvmName : String
  retTy : LType
deriving DecidableEq, Repr

/-- The IR module: string-constant globals, declared external C functions,
and the emitted functions. -/
structure LModule where
  globals : List (Nat × String)
  declares : List String
  funcs : List LFunc
deriving DecidableEq, Repr

/-- The full state of one `CodeGenerator`: the module, the counters, the
function registry, and the current function's variable map, block list and
builder position. -/
structure GenState where
  module : LModule
  stringCounter : Nat
  regCounter : Nat
  functions : List (String × FuncRef)
  vars : List (String × LType)
  blocks : List (List Instr)
  cur : Nat
deriving Repr

/-- The contents of block `i`, empty for an out-of-range index. -/
def getB (s : GenState) (i : Nat) : List Instr := (s.blocks.get? i).getD []

/-- Append an instruction to block `n` of a block list. -/
def updateAt : List (List Instr) → Nat → Instr → List (List Instr)
  | [], _, _ => []
  | b :: bs, 0, ins => (b ++ [ins]) :: bs
  | b :: bs, n + 1, ins => b :: updateAt bs n ins

/-- Emit a non-terminator instruction at the builder's position.  llvmlite
performs no check here. -/
def emit (s : GenState) (ins : Instr) : GenState :=
  { s with blocks := updateAt s.blocks s.cur ins }

/-- A block is terminated once some terminator has been emitted into it
(llvmlite records this sticky state on the block). -/
def hasTerm (bb : List Instr) : Bool := bb.any Instr.isTerminator

/-- Emit a terminator: llvmlite's `IRBuilder._set_terminator` asserts that
the current block is not already terminated. -/
def emitTerm (s : GenState) (ins : Instr) : Except GenErr GenState :=
  if hasTerm (getB s s.cur) then .error .assertTerminated else .ok (emit s ins)

/-- `Function.append_basic_block`: add a fresh empty block, returning its
index. -/
def appendBlock (s : GenState) : Nat × GenState :=
  (s.blocks.length, { s with blocks := s.blocks ++ [[]] })

/-- `IRBuilder.position_at_end`. -/
def positionAt (s : GenState) (i : Nat) : GenState := { s with cur := i }

/-- Allocate a fresh SSA register of the given type. -/
def freshReg (s : GenState) (t : LType) : LValue × GenState :=
  (.reg t s.regCounter, { s with regCounter := s.regCounter + 1 })

/-- Emit an instruction producing a fresh register of type `t`. -/
def emitVal (s : GenState) (ins : Instr) (t : LType) : LValue × GenState :=
  let (v, s₁) := freshReg s t
  (v, emit s₁ ins)

/-- `CodeGenerator._get_string_constant`: create the global `str_N`,
advance the counter, and emit a bitcast of it to `i8*`. -/
def getStringConstant (s : GenState) (str : String) : LValue × GenState :=
  let gid := s.stringCounter
  let s₁ := { s with
      stringCounter := gid + 1,
      module := { s.module with globals := s.module.globals ++ [(gid, str)] } }
  emitVal s₁ (.bitcast gid) .ptr

/-- `CodeGenerator._concatenate_strings`: strlen both, add the lengths plus
one, malloc, strcpy the left then strcat the right. -/
def concatStrings (s₀ : GenState) (l r : LValue) : LValue × GenState :=
  let p₁ := emitVal s₀ (.fcall "strlen" [l]) .i64
  let p₂ := emitVal p₁.2 (.fcall "strlen" [r]) .i64
  let p₃ := emitVal p₂.2 (.binop "add" p₁.1 p₂.1) .i64
  let p₄ := emitVal p₃.2 (.binop "add" p₃.1 (.cInt .i64 1)) .i64
  let p₅ := emitVal p₄.2 (.fcall "malloc" [p₄.1]) .ptr
  let p₆ := emitVal p₅.2 (.fcall "strcpy" [p₅.1, l]) .ptr
  let p₇ := emitVal p₆.2 (.fcall "strcat" [p₅.1, r]) .ptr
  (p₅.1, p₇.2)

/-- `CodeGenerator._compare_strings`: declare `strcmp` on first use, call
it, and compare the result against zero. -/
def compareStrings (s₀ : GenState) (l r : LValue) : LValue × GenState :=
  let s₁ :=
    if s₀.module.declares.contains "strcmp" then s₀
    else { s₀ with module := { s₀.module with declares := s₀.module.declares ++ ["strcmp"] } }
  let p₁ := emitVal s₁ (.fcall "strcmp" [l, r]) .i32
  emitVal p₁.2 (.icmp "==" p₁.1 (.cInt .i32 0)) .i1

/-- `CodeGenerator.generate_literal`. -/
def genLiteral (s : GenState) : LitVal → LValue × GenState
  | .vInt n => (.cInt .i32 n, s)
  | .vFloat n => (.cDouble n, s)
  | .vBool b => (.cInt .i1 (if b then 1 else 0), s)
  | .vStr str => getStringConstant s str

/-- Dispatch of `generate_binary_op` on the conventional operator. -/
def genBinOpConv (s : GenState) (conv : String) (l r : LValue) :
    Except GenErr (LValue × GenState) :=
  if conv = "+" then
    if l.lty = .ptr ∧ r.lty = .ptr then .ok (concatStrings s l r)
    else .ok (emitVal s (.binop "add" l r) l.lty)
  else if conv = "-" then .ok (emitVal s (.binop "sub" l r) l.lty)
  else if conv = "*" then .ok (emitVal s (.binop "mul" l r) l.lty)
  else if conv = "/" then .ok (emitVal s (.binop "sdiv" l r) l.lty)
  else if conv = ">" then .ok (emitVal s (.icmp ">" l r) .i1)
  else if conv = "<" then .ok (emitVal s (.icmp "<" l r) .i1)
  else if conv = "==" then
    if l.lty = .ptr ∧ r.lty = .ptr then .ok (compareStrings s l r)
    else .ok (emitVal s (.icmp "==" l r) .i1)
  else .error (.unsupportedOperator conv)

/-- `CodeGenerator.generate_binary_op` after both operands are evaluated:
map the surface operator through `OPERATOR_MAPPINGS` (defaulting to
itself) and dispatch on the conventional meaning. -/
def genBinOpVals (s : GenState) (op : String) (l r : LValue) :
    Except GenErr (LValue × GenState) :=
  genBinOpConv s ((alookup OPERATOR_MAPPINGS op).getD op) l r

mutual

/-- `CodeGenerator.generate_expression`.  A `UnaryOp` matches none of the
handled node classes and raises `CodeGenError`. -/
def genExpr (s : GenState) : Expr → Except GenErr (LValue × GenState)
  | .lit v => .ok (genLiteral s v)
  | .ident name =>
      match alookup s.vars name with
      | none => .error (.keyError name)
      | some pointee => .ok (emitVal s (.load name) pointee)
  | .binop op l r => do
      let (lv, s₁) ← genExpr s l
      let (rv, s₂) ← genExpr s₁ r
      genBinOpVals s₂ op lv rv
  | .unop _ _ => .error .unsupportedExpression
  | .call fname args =>
      match alookup s.functions fname with
      | none => .error (.functionNotFound fname)
      | some fref => do
          let (vs, s₁) ← genArgs s args
          .ok (emitVal s₁ (.fcall fref.llvmName vs) fref.retTy)

/-- Evaluate call arguments left to right. -/
def genArgs (s : GenState) : List Expr → Except GenErr (List LValue × GenState)
  | [] => .ok ([], s)
  | e :: es => do
      let (v, s₁) ← genExpr s e
      let (vs, s₂) ← genArgs s₁ es
      .ok (v :: vs, s₂)

end

/-- `CodeGenerator._print_value`: select the printf format string by the
value's runtime LLVM type, widening booleans to i32 first. -/
def printValue (s : GenState) (v : LValue) : GenState :=
  if v.lty = .i32 then
    let p := getStringConstant s "%d"
    (emitVal p.2 (.fcall "printf" [p.1, v]) .i32).2
  else if v.lty = .double then
    let p := getStringConstant s "%f"
    (emitVal p.2 (.fcall "printf" [p.1, v]) .i32).2
  else if v.lty = .i1 then
    let q := emitVal s (.zext v) .i32
    let p := getStringConstant q.2 "%d"
    (emitVal p.2 (.fcall "printf" [p.1, q.1]) .i32).2
  else if v.lty = .ptr then
    let p := getStringConstant s "%s"
    (emitVal p.2 (.fcall "printf" [p.1, v]) .i32).2
  else
    let p := getStringConstant s "%d"
    (emitVal p.2 (.fcall "printf" [p.1, v]) .i32).2

/-- The per-expression loop of `CodeGenerator.generate_print_statement`:
string literals are printed directly, other expressions are evaluated and
formatted by runtime type. -/
def genPrintExprs (s : GenState) : List Expr → Except GenErr GenState
  | [] => .ok s
  | e :: es =>
      match e with
      | .lit (.vStr str) =>
          let p := getStringConstant s str
          genPrintExprs (emitVal p.2 (.fcall "printf" [p.1]) .i32).2 es
      | _ => do
          let (v, s₁) ← genExpr s e
          genPrintExprs (printValue s₁ v) es

/-- `CodeGenerator.generate_print_statement`: print each expression, then
one newline. -/
def genPrintStmt (s : GenState) (es : List Expr) : Except GenErr GenState := do
  let s₁ ← genPrintExprs s es
  let p := getStringConstant s₁ "\n"
  .ok ((emitVal p.2 (.fcall "printf" [p.1]) .i32).2)

/-- `CodeGenerator.generate_input_statement`: select the scanf format by
the target slot's pointee type; string targets get a 256-byte malloc
buffer scanned with `%255s` and stored into the slot. -/
def genInput (s : GenState) (name : String) : Except GenErr GenState :=
  match alookup s.vars name with
  | none => .error (.keyError name)
  | some pointee =>
      if pointee = .i32 then
        let p := getStringConstant s "%d"
        .ok ((emitVal p.2 (.fcall "scanf" [p.1, .slotv name pointee]) .i32).2)
      else if pointee = .double then
        let p := getStringConstant s "%lf"
        .ok ((emitVal p.2 (.fcall "scanf" [p.1, .slotv name pointee]) .i32).2)
      else if pointee = .ptr then
        let q := emitVal s (.fcall "malloc" [.cInt .i64 256]) .ptr
        let p := getStringConstant q.2 "%255s"
        .ok (emit (emitVal p.2 (.fcall "scanf" [p.1, q.1]) .i32).2 (.store q.1 name))
      else
        let p := getStringConstant s "%d"
        .ok ((emitVal p.2 (.fcall "scanf" [p.1, .slotv name pointee]) .i32).2)

/-- The guarded branch after a structured-statement body: branch to block
`k` only when the builder's current block is not already terminated. -/
def guardBr (s : GenState) (k : Nat) : GenState :=
  if hasTerm (getB s s.cur) then s else emit s (.br k)

mutual

/-- `CodeGenerator.generate_statement` dispatch.

The `sif` case is `generate_if_statement`: create `then`/`else`/`merge`
blocks, conditional-branch, emit both branch bodies, branch each branch to
`merge` only if its current block is not already terminated, and continue
at `merge`.

The `swhile` case is `generate_while_loop`: branch to `cond`; there
evaluate the condition and, only when its type is i32, normalize it by a
signed compare against 0; conditional-branch to `body`/`end`; emit the
body and branch back to `cond` if not terminated; continue at `end`.

The `sfor` case is `generate_for_loop`: emit `init` in the current block,
then `cond`/`body`/`update`/`end` blocks; the condition is branched on
without any normalization; the update block branches back to `cond`
unconditionally. -/
def genStmt (s : GenState) : Stmt → Except GenErr GenState
  | .varDecl ty name ini => do
      let t ← getLlvmType ty
      let s₁ := emit s (.alloca t name)
      let s₂ := { s₁ with vars := dinsert s₁.vars name t }
      match ini with
      | none => .ok s₂
      | some e => do
          let (v, s₃) ← genExpr s₂ e
          .ok (emit s₃ (.store v name))
  | .assign name value => do
      let (v, s₁) ← genExpr s value
      match alookup s₁.vars name with
      | none => .error (.keyError name)
      | some _ => .ok (emit s₁ (.store v name))
  | .sif cond thenB (some es) => do
      let (c, s₁) ← genExpr s cond
      let (thenI, s₂) := appendBlock s₁
      let (elseI, s₃) := appendBlock s₂
      let (mergeI, s₄) := appendBlock s₃
      let s₅ ← emitTerm s₄ (.cbr c thenI elseI)
      let s₆ ← genStmtList (positionAt s₅ thenI) thenB
      let s₇ := guardBr s₆ mergeI
      let s₈ ← genStmtList (positionAt s₇ elseI) es
      let s₉ := guardBr s₈ mergeI
      .ok (positionAt s₉ mergeI)
  | .sif cond thenB none => do
      let (c, s₁) ← genExpr s cond
      let (thenI, s₂) := appendBlock s₁
      let (elseI, s₃) := appendBlock s₂
      let (mergeI, s₄) := appendBlock s₃
      let s₅ ← emitTerm s₄ (.cbr c thenI elseI)
      let s₆ ← genStmtList (positionAt s₅ thenI) thenB
      let s₇ := guardBr s₆ mergeI
      let s₈ := positionAt s₇ elseI
      let s₉ := guardBr s₈ mergeI
      .ok (positionAt s₉ mergeI)
  | .swhile cond body => do
      let (condI, s₁) := appendBlock s
      let (bodyI, s₂) := appendBlock s₁
      let (endI, s₃) := appendBlock s₂
      let s₄ ← emitTerm s₃ (.br condI)
      let (c, s₅) ← genExpr (positionAt s₄ condI) cond
      let q :=
        if c.lty = .i32 then emitVal s₅ (.icmp "!=" c (.cInt .i32 0)) .i1
        else (c, s₅)
      let s₇ ← emitTerm q.2 (.cbr q.1 bodyI endI)
      let s₈ ← genStmtList (positionAt s₇ bodyI) body
      let s₉ := guardBr s₈ condI
      .ok (positionAt s₉ endI)
  | .sfor ini cond upd body => do
      let s₁ ← genStmt s ini
      let (condI, s₂) := appendBlock s₁
      let (bodyI, s₃) := appendBlock s₂
      let (updI, s₄) := appendBlock s₃
      let (endI, s₅) := appendBlock s₄
      let s₆ ← emitTerm s₅ (.br condI)
      let (c, s₇) ← genExpr (positionAt s₆ condI) cond
      let s₈ ← emitTerm s₇ (.cbr c bodyI endI)
      let s₉ ← genStmtList (positionAt s₈ bodyI) body
      let s₁₀ := guardBr s₉ updI
      let s₁₁ ← genStmt (positionAt s₁₀ updI) upd
      let s₁₂ ← emitTerm s₁₁ (.br condI)
      .ok (positionAt s₁₂ endI)
  | .sreturn value =>
      match value with
      | some e => do
          let (v, s₁) ← genExpr s e
          emitTerm s₁ (.ret v)
      | none => emitTerm s .retVoid
  | .sprint es => genPrintStmt s es
  | .sinput name => genInput s name
  | .sexpr e => do
      let (_, s₁) ← genExpr s e
      .ok s₁

/-- Emit the statements of a body in order. -/
def genStmtList (s : GenState) : List Stmt → Except GenErr GenState
  | [] => .ok s
  | st :: rest => do
      let s₁ ← genStmt s st
      genStmtList s₁ rest

end

/-- Top-level `ReturnStatement` test used by `generate_function` to decide
whether a default return must be synthesized. -/
def Stmt.isReturn : Stmt → Bool
  | .sreturn _ => true
  | _ => false

/-- Map the parameter types through `get_llvm_type`. -/
def mapTypes : List Param → Except GenErr (List LType)
  | [] => .ok []
  | p :: ps => do
      let t ← getLlvmType p.paramType
      let ts ← mapTypes ps
      .ok (t :: ts)

/-- The parameter prologue of `generate_function`: for each parameter,
alloca a slot, store the incoming argument, and register the slot. -/
def genParamAllocas : GenState → List (Param × LType) → Nat → GenState
  | s, [], _ => s
  | s, (p, t) :: rest, i =>
      let s₁ := emit s (.alloca t p.name)
      let s₂ := emit s₁ (.store (.argv t i) p.name)
      let s₃ := { s₂ with vars := dinsert s₂.vars p.name t }
      genParamAllocas s₃ rest (i + 1)

/-- `CodeGenerator.generate_function`: map the types, register the
function (the entry point renamed to `main`), reset the per-function
state, emit parameters and body, and synthesize a default return when no
top-level return statement was seen: 0 for integer-typed returns
(including booleans), 0.0 for double, and a void return otherwise
(the string-pointer case). -/
def genFunction (s : GenState) (f : FunctionDef) : Except GenErr GenState := do
  let paramTys ← mapTypes f.params
  let retTy ← getLlvmType f.returnType
  let llvmName := if f.name = MAIN_FUNCTION_NAME then "main" else f.name
  let s₁ := { s with functions := dinsert s.functions f.name ⟨llvmName, retTy⟩ }
  let s₂ := { s₁ with blocks := [[]], cur := 0, vars := [] }
  let s₃ := genParamAllocas s₂ (f.params.zip paramTys) 0
  let s₄ ← genStmtList s₃ f.body
  let s₅ ←
    if f.body.any Stmt.isReturn then pure s₄
    else match retTy with
      | .i32 => emitTerm s₄ (.ret (.cInt .i32 0))
      | .i1 => emitTerm s₄ (.ret (.cInt .i1 0))
      | .i64 => emitTerm s₄ (.ret (.cInt .i64 0))
      | .double => emitTerm s₄ (.ret (.cDouble 0))
      | .ptr => emitTerm s₄ .retVoid
  .ok { s₅ with module := { s₅.module with
          funcs := s₅.module.funcs ++ [⟨llvmName, retTy, paramTys, s₅.blocks⟩] } }

/-- Generate every function of the program in order. -/
def genProgram : GenState → List FunctionDef → Except GenErr GenState
  | s, [] => .ok s
  | s, f :: fs => do
      let s' ← genFunction s f
      genProgram s' fs

/-- The state of a freshly constructed `CodeGenerator`: empty module with
the six C library declarations, counters at zero, empty registries. -/
def initGenState : GenState :=
  { module := ⟨[], ["printf", "scanf", "malloc", "strlen", "strcpy", "strcat"], []⟩,
    stringCounter := 0, regCounter := 0,
    functions := [], vars := [], blocks := [], cur := 0 }

/-- `CodeGenerator.generate`: emit all functions and return the module. -/
def generate (p : Program) (s : GenState) : Except GenErr LModule := do
  let s' ← genProgram s p.functions
  .ok s'.module

/-! ## AOT executable generation (`CodeGenerator.generate_executable`)

The operation is modelled as a function of the environment it probes: tool
availability and external tool exit codes.  Its effect on the file system
is summarised by the list of temporary files still existing when the call
returns or raises. -/

/-- The environment of one `generate_executable` invocation: whether `llc`
is on PATH, whether the Homebrew fallback path exists, and the results of
spawning the two external tools (`none` models `FileNotFoundError` from
`subprocess.run`, `some c` an exit with code `c`). -/
structure ToolEnv where
  llcOnPath : Bool
  homebrewLlc : Bool
  llcRun : Option Int
  clangRun : Option Int
deriving DecidableEq, Repr

/-- How one `generate_executable` invocation ends. -/
inductive ExeOutcome
  | success
  | llcNotFoundError
  | llcFailed
  | linkFailed
  | toolNotFound
deriving DecidableEq, Repr

/-- Result of the model: the outcome together with the temporary files
still present on disk when control leaves the method. -/
structure ExeResult where
  outcome : ExeOutcome
  leftover : List String
deriving DecidableEq, Repr

/-- The serialized-IR temporary file created by `tempfile.NamedTemporaryFile`. -/
def llFileName : String := "tmp.ll"

/-- `CodeGenerator.generate_executable`: the IR temp file is written
first; then `llc` is looked up, and if neither the PATH nor the Homebrew
location has it, `CodeGenError` is raised *before* the `try`/`finally`
block is entered, so the cleanup loop never runs on that path.  All later
failures (tool spawn raising `FileNotFoundError`, or a nonzero exit from
`llc` or `clang`) happen inside the `try`, and the `finally` clause
removes every temporary file that exists. -/
def generateExecutable (env : ToolEnv) : ExeResult :=
  if ¬env.llcOnPath ∧ ¬env.homebrewLlc then
    ⟨.llcNotFoundError, [llFileName]⟩
  else
    match env.llcRun with
    | none => ⟨.toolNotFound, []⟩
    | some llcCode =>
        if llcCode ≠ 0 then ⟨.llcFailed, []⟩
        else
          match env.clangRun with
          | none => ⟨.toolNotFound, []⟩
          | some linkCode =>
              if linkCode ≠ 0 then ⟨.linkFailed, []⟩ else ⟨.success, []⟩

/-- Whether an `Except` computation succeeded. -/
def eIsOk {ε α : Type} : Except ε α → Bool
  | .ok _ => true
  | .error _ => false

/-! ## Concrete demonstration programs -/

/-- A compilation unit in which the variable `x` is declared in the bodies
of two different functions, and the variable `f` of the entry function
shares its name with the function `f`. -/
def c2Program : Program := ⟨[
  ⟨"Float", "f", [], [.varDecl "Float" "x" (some (.lit (.vInt 1))),
                      .sreturn (some (.ident "x"))]⟩,
  ⟨"Float", "side", [], [.varDecl "Float" "x" (some (.lit (.vInt 2))),
                         .varDecl "Float" "f" (some (.lit (.vInt 3))),
                         .sreturn (some (.ident "f"))]⟩]⟩

/-- An entry function whose declared return type is the Confuc-IO surface
type `int`, i.e. the string-pointer type `i8*`, with no explicit return. -/
def c3Program : Program := ⟨[⟨"int", "side", [], []⟩]⟩

/-- An entry function with a while loop whose condition is a float
literal, i.e. of runtime type `double`, not boolean. -/
def c5Program : Program := ⟨[⟨"Float", "side", [],
  [.swhile (.lit (.vFloat 1)) [], .sreturn (some (.lit (.vInt 0)))]⟩]⟩

/-- An entry function with an if statement that returns in both branches;
since neither return is a top-level statement, the generator also
synthesizes a default return in the merge block. -/
def c1Program : Program := ⟨[⟨"Float", "side", [],
  [.sif (.lit (.vBool true)) [.sreturn (some (.lit (.vInt 1)))]
        (some [.sreturn (some (.lit (.vInt 2)))])]⟩]⟩

/-- A program containing a `UnaryOp` expression in the entry function. -/
def c9Program : Program := ⟨[⟨"Float", "side", [],
  [.sexpr (.unop "~" (.lit (.vInt 1)))]⟩]⟩

/-- A symbol-table state with one declared-but-uninitialized variable and
one registered function, used to instantiate the frame theorems. -/
def demoSymTab : SymTab :=
  ⟨[("g", ⟨"Float", false, 0⟩)], [("h", ⟨"Float", "h", [], []⟩)]⟩

/-- A function with one parameter and a body that declares a local and
assigns to the outer variable `g`. -/
def demoFunc : FunctionDef :=
  ⟨"Float", "h", [⟨"Float", "p", 0⟩],
   [.varDecl "Float" "y" (some (.lit (.vInt 1))),
    .assign "g" (.lit (.vInt 2))]⟩

/-! ## C6: Language Definition round-trips -/

/-- C6: for every key in each of the four mapping categories (keyword,
type, operator, delimiter), forward lookup followed by reverse lookup
returns the original key, and conversely every reverse-table entry maps
back through the forward table: each mapping is a bijection within its
category. -/
theorem c6_mapping_round_trip :
    (∀ p ∈ KEYWORD_MAPPINGS, alookup KEYWORD_REVERSE p.2 = some p.1) ∧
    (∀ p ∈ TYPE_MAPPINGS, alookup TYPE_REVERSE p.2 = some p.1) ∧
    (∀ p ∈ OPERATOR_MAPPINGS, alookup OPERATOR_REVERSE p.2 = some p.1) ∧
    (∀ p ∈ DELIMITER_MAPPINGS, alookup DELIMITER_REVERSE p.2 = some p.1) ∧
    (∀ p ∈ KEYWORD_REVERSE, alookup KEYWORD_MAPPINGS p.2 = some p.1) ∧
    (∀ p ∈ TYPE_REVERSE, alookup TYPE_MAPPINGS p.2 = some p.1) ∧
    (∀ p ∈ OPERATOR_REVERSE, alookup OPERATOR_MAPPINGS p.2 = some p.1) ∧
    (∀ p ∈ DELIMITER_REVERSE, alookup DELIMITER_MAPPINGS p.2 = some p.1) := by
  refine ⟨?_, ?_, ?_, ?_, ?_, ?_, ?_, ?_⟩ <;> decide

/-- C6 witness: the round trip evaluated on one concrete key per
category. -/
theorem c6_mapping_round_trip_witness :
    alookup KEYWORD_REVERSE "if" = some "func" ∧
    alookup TYPE_REVERSE "int" = some "Float" ∧
    alookup OPERATOR_REVERSE "+" = some "/" ∧
    alookup DELIMITER_REVERSE "(" = some "\x7b" :=
  ⟨c6_mapping_round_trip.1 ("func", "if") (by decide),
   c6_mapping_round_trip.2.1 ("Float", "int") (by decide),
   c6_mapping_round_trip.2.2.1 ("/", "+") (by decide),
   c6_mapping_round_trip.2.2.2.1 ("\x7b", "(") (by decide)⟩

/-! ## C2: duplicate declarations -/

/-- C2 counterexample: `c2Program` declares the variable `x` in two
different function bodies and declares a variable `f` sharing its name
with the function `f`, yet semantic analysis succeeds — no
`DuplicateDeclaration` is raised, refuting the claim that any two
same-named declarations anywhere in a unit collide. -/
theorem c2_shared_names_accepted : eIsOk (analyze c2Program) = true := by rfl

/-- C2 amended: a declaration fails with `DuplicateDeclaration` exactly
within its own namespace and scope lifetime: a variable declaration whose
name is already present in the variable map fails, and a function
declaration whose name is already present in the function map fails
(variables and functions live in separate maps, and each function's
variables are removed by the save/restore around its analysis). -/
theorem c2_duplicate_in_same_namespace :
    (∀ (st : SymTab) (n ty : String) (ini : Bool) (ln : Nat) (info : SymbolInfo),
       alookup st.symbols n = some info →
       st.declareVariable n ty ini ln = .error (.duplicateVariable n)) ∧
    (∀ (st : SymTab) (f : FunctionDef) (fd : FunctionDef),
       alookup st.functions f.name = some fd →
       st.declareFunction f = .error (.duplicateFunction f.name)) := by
  constructor
  · intro st n ty ini ln info h
    simp [SymTab.declareVariable, h]
  · intro st f fd h
    simp [SymTab.declareFunction, h]

/-- C2 amended witness: both duplicate rejections evaluated on concrete
tables. -/
theorem c2_duplicate_in_same_namespace_witness :
    demoSymTab.declareVariable "g" "Float" false 3 = .error (.duplicateVariable "g") ∧
    demoSymTab.declareFunction ⟨"Float", "h", [], []⟩ = .error (.duplicateFunction "h") :=
  ⟨c2_duplicate_in_same_namespace.1 demoSymTab "g" "Float" false 3 ⟨"Float", false, 0⟩ (by rfl),
   c2_duplicate_in_same_namespace.2 demoSymTab ⟨"Float", "h", [], []⟩ ⟨"Float", "h", [], []⟩ (by rfl)⟩

/-! ## C4: temporary files of the AOT path -/

/-- C4: on the path where `llc` is found neither on PATH nor at the
Homebrew location, `generate_executable` raises `CodeGenError` before the
`try`/`finally` is entered and the serialized-IR temporary file is left
behind, contradicting the claimed guarantee; on every path that reaches
the external tools — spawn failure, nonzero `llc` exit, nonzero `clang`
exit, and success — the `finally` clause removes all temporary files. -/
theorem c4_llc_missing_leaks_ir_tempfile :
    generateExecutable ⟨false, false, none, none⟩ = ⟨.llcNotFoundError, [llFileName]⟩ ∧
    generateExecutable ⟨true, false, none, none⟩ = ⟨.toolNotFound, []⟩ ∧
    generateExecutable ⟨true, false, some 1, none⟩ = ⟨.llcFailed, []⟩ ∧
    generateExecutable ⟨true, false, some 0, some 1⟩ = ⟨.linkFailed, []⟩ ∧
    generateExecutable ⟨true, false, some 0, some 0⟩ = ⟨.success, []⟩ :=
  ⟨rfl, rfl, rfl, rfl, rfl⟩

/-! ## C7: determinism of IR generation -/

/-- C7: generating IR twice from the same validated AST, each time with a
freshly constructed code generator (fresh module, counters and maps as in
`initGenState`), produces identical modules. -/
theorem c7_fresh_generation_deterministic :
    ∀ (p : Program) (s₁ s₂ : GenState),
      s₁ = initGenState → s₂ = initGenState → generate p s₁ = generate p s₂ := by
  intro p s₁ s₂ h₁ h₂
  rw [h₁, h₂]

/-- C7 witness: two fresh runs on a concrete program coincide. -/
theorem c7_fresh_generation_deterministic_witness :
    generate c2Program initGenState = generate c2Program initGenState :=
  c7_fresh_generation_deterministic c2Program initGenState initGenState rfl rfl

/-! ## C8: symbol-table algebra -/

/-- C8: `markInitialized` is idempotent on every symbol-table state, and
`isInitialized` returns false for every name that was never declared. -/
theorem c8_mark_idempotent_and_unseen_false :
    (∀ (st : SymTab) (n : String),
       (st.markInitialized n).markInitialized n = st.markInitialized n) ∧
    (∀ (st : SymTab) (n : String),
       st.isDeclared n = false → st.isInitialized n = false) := by
  constructor
  · intro st n
    cases st with
    | mk syms funcs =>
      simp only [SymTab.markInitialized, List.map_map, SymTab.mk.injEq, and_true]
      refine List.map_congr_left ?_
      intro kv _
      by_cases h : kv.1 = n <;> simp [Function.comp, h]
  · intro st n h
    cases halo : alookup st.symbols n with
    | none => simp [SymTab.isInitialized, halo]
    | some info =>
        exfalso
        simp [SymTab.isDeclared, halo] at h

/-- C8 witness: idempotence on a concrete table, and a never-declared
name reported uninitialized on a concrete table. -/
theorem c8_mark_idempotent_and_unseen_false_witness :
    (demoSymTab.markInitialized "g").markInitialized "g" = demoSymTab.markInitialized "g" ∧
    demoSymTab.isInitialized "nope" = false :=
  ⟨c8_mark_idempotent_and_unseen_false.1 demoSymTab "g",
   c8_mark_idempotent_and_unseen_false.2 demoSymTab "nope" (by rfl)⟩

/-! ## Generic `Except` destructuring lemmas -/

theorem bind_ok {ε α β : Type} {x : Except ε α} {f : α → Except ε β} {b : β}
    (h : x >>= f = .ok b) : ∃ a, x = .ok a ∧ f a = .ok b := by
  cases x with
  | error e => exact absurd h (by simp [Bind.bind, Except.bind])
  | ok a => exact ⟨a, rfl, by simpa [Bind.bind, Except.bind] using h⟩

theorem ok_bind {ε α β : Type} {x : Except ε α} {f : α → Except ε β} {a : α}
    (h : x = .ok a) : x >>= f = f a := by
  subst h; rfl

theorem error_bind {ε α β : Type} {x : Except ε α} {f : α → Except ε β} {e : ε}
    (h : x = .error e) : x >>= f = .error e := by
  subst h; rfl

/-! ## `UnaryOp` containment (C9) -/

mutual

/-- Whether an expression contains a `UnaryOp` node anywhere. -/
def containsUnaryExpr : Expr → Bool
  | .lit _ => false
  | .ident _ => false
  | .binop _ l r => containsUnaryExpr l || containsUnaryExpr r
  | .unop _ _ => true
  | .call _ args => containsUnaryList args

/-- Whether any expression of a list contains a `UnaryOp` node. -/
def containsUnaryList : List Expr → Bool
  | [] => false
  | e :: es => containsUnaryExpr e || containsUnaryList es

end

mutual

/-- Whether a statement contains a `UnaryOp` node anywhere. -/
def containsUnaryStmt : Stmt → Bool
  | .varDecl _ _ ini =>
      match ini with
      | some e => containsUnaryExpr e
      | none => false
  | .assign _ v => containsUnaryExpr v
  | .sif c t (some es) =>
      containsUnaryExpr c || containsUnaryStmts t || containsUnaryStmts es
  | .sif c t none => containsUnaryExpr c || containsUnaryStmts t
  | .swhile c b => containsUnaryExpr c || containsUnaryStmts b
  | .sfor i c u b =>
      containsUnaryStmt i || containsUnaryExpr c || containsUnaryStmt u || containsUnaryStmts b
  | .sreturn v =>
      match v with
      | some e => containsUnaryExpr e
      | none => false
  | .sprint es => containsUnaryList es
  | .sinput _ => false
  | .sexpr e => containsUnaryExpr e

/-- Whether any statement of a list contains a `UnaryOp` node. -/
def containsUnaryStmts : List Stmt → Bool
  | [] => false
  | s :: rest => containsUnaryStmt s || containsUnaryStmts rest

end

/-- Whether a program contains a `UnaryOp` node anywhere. -/
def containsUnaryProgram (p : Program) : Bool :=
  p.functions.any fun f => containsUnaryStmts f.body

mutual

/-- Visiting an expression that contains a `UnaryOp` always fails. -/
theorem visitExpr_unary_fails (e : Expr) (st : SymTab)
    (hc : containsUnaryExpr e = true) : ∃ er, visitExpr st e = .error er := by
  cases e with
  | lit v => simp [containsUnaryExpr] at hc
  | ident n => simp [containsUnaryExpr] at hc
  | unop o x => exact ⟨.noVisitor "UnaryOp", by simp [visitExpr]⟩
  | binop o l r =>
      simp only [containsUnaryExpr, Bool.or_eq_true] at hc
      cases hl : visitExpr st l with
      | error er => exact ⟨er, by simp [visitExpr, error_bind hl]⟩
      | ok lt =>
          cases hc with
          | inl h =>
              obtain ⟨er, her⟩ := visitExpr_unary_fails l st h
              rw [hl] at her; cases her
          | inr h =>
              obtain ⟨er, her⟩ := visitExpr_unary_fails r st h
              refine ⟨er, ?_⟩
              simp [visitExpr, ok_bind hl, error_bind her]
  | call fname args =>
      simp only [containsUnaryExpr] at hc
      cases hf : alookup st.functions fname with
      | none => exact ⟨.undeclaredIdentifier fname, by simp [visitExpr, hf]⟩
      | some f =>
          by_cases hlen : args.length = f.params.length
          · obtain ⟨er, her⟩ := checkArgs_unary_fails args f.params st fname hc hlen
            refine ⟨er, ?_⟩
            simp [visitExpr, hf, hlen, error_bind her]
          · exact ⟨.arityMismatch fname, by simp [visitExpr, hf, hlen]⟩

/-- Checking call arguments, one of which contains a `UnaryOp`, always
fails (given matching lengths so that the zip reaches every argument). -/
theorem checkArgs_unary_fails (args : List Expr) (ps : List Param) (st : SymTab)
    (fname : String) (hc : containsUnaryList args = true)
    (hlen : args.length = ps.length) : ∃ er, checkArgs st fname args ps = .error er := by
  cases args with
  | nil => simp [containsUnaryList] at hc
  | cons a as =>
      cases ps with
      | nil => simp at hlen
      | cons p ps' =>
          simp only [containsUnaryList, Bool.or_eq_true] at hc
          cases ha : visitExpr st a with
          | error er => exact ⟨er, by simp [checkArgs, error_bind ha]⟩
          | ok t =>
              cases hc with
              | inl h =>
                  obtain ⟨er, her⟩ := visitExpr_unary_fails a st h
                  rw [ha] at her; cases her
              | inr h =>
                  by_cases hcompat : typesCompatible p.paramType t = true
                  · obtain ⟨er, her⟩ :=
                      checkArgs_unary_fails as ps' st fname h (by simpa using hlen)
                    refine ⟨er, ?_⟩
                    simp [checkArgs, ok_bind ha, hcompat, her]
                  · refine ⟨.typeMismatch p.paramType t, ?_⟩
                    simp [checkArgs, ok_bind ha, hcompat]

end

/-- Visiting a list of print expressions, one of which contains a
`UnaryOp`, always fails. -/
theorem visitExprs_unary_fails (es : List Expr) (st : SymTab)
    (hc : containsUnaryList es = true) : ∃ er, visitExprs st es = .error er := by
  induction es with
  | nil => simp [containsUnaryList] at hc
  | cons e es' ih =>
      simp only [containsUnaryList, Bool.or_eq_true] at hc
      cases he : visitExpr st e with
      | error er => exact ⟨er, by simp [visitExprs, error_bind he]⟩
      | ok t =>
          cases hc with
          | inl h =>
              obtain ⟨er, her⟩ := visitExpr_unary_fails e st h
              rw [he] at her; cases her
          | inr h =>
              obtain ⟨er, her⟩ := ih h
              exact ⟨er, by simp [visitExprs, ok_bind he, her]⟩

mutual

/-- Visiting a statement that contains a `UnaryOp` always fails. -/
theorem visitStmt_unary_fails (s : Stmt) (st : SymTab)
    (hc : containsUnaryStmt s = true) : ∃ er, visitStmt st s = .error er := by
  cases s with
  | varDecl ty name ini =>
      cases ini with
      | none => simp [containsUnaryStmt] at hc
      | some e =>
          simp only [containsUnaryStmt] at hc
          obtain ⟨er, her⟩ := visitExpr_unary_fails e st hc
          cases hty : alookup TYPE_MAPPINGS ty with
          | none => exact ⟨.unknownType ty, by simp [visitStmt, hty]⟩
          | some c => exact ⟨er, by simp [visitStmt, hty, error_bind her]⟩
  | assign name v =>
      simp only [containsUnaryStmt] at hc
      obtain ⟨er, her⟩ := visitExpr_unary_fails v st hc
      by_cases hd : st.isDeclared name = true
      · exact ⟨er, by simp [visitStmt, hd, error_bind her]⟩
      · exact ⟨.undeclaredIdentifier name, by simp [visitStmt, hd]⟩
  | sif c t e =>
      cases e with
      | none =>
          simp only [containsUnaryStmt, Bool.or_eq_true] at hc
          cases hcv : visitExpr st c with
          | error er => exact ⟨er, by simp [visitStmt, error_bind hcv]⟩
          | ok ct =>
              cases hc with
              | inl h =>
                  obtain ⟨er, her⟩ := visitExpr_unary_fails c st h
                  rw [hcv] at her; cases her
              | inr h =>
                  obtain ⟨er, her⟩ := visitStmtList_unary_fails t st h
                  exact ⟨er, by simp [visitStmt, ok_bind hcv, her]⟩
      | some es =>
          simp only [containsUnaryStmt, Bool.or_eq_true] at hc
          cases hcv : visitExpr st c with
          | error er => exact ⟨er, by simp [visitStmt, error_bind hcv]⟩
          | ok ct =>
              cases ht : visitStmtList st t with
              | error er => exact ⟨er, by simp [visitStmt, ok_bind hcv, error_bind ht]⟩
              | ok st₁ =>
                  rcases hc with (h | h) | h
                  · obtain ⟨er, her⟩ := visitExpr_unary_fails c st h
                    rw [hcv] at her; cases her
                  · obtain ⟨er, her⟩ := visitStmtList_unary_fails t st h
                    rw [ht] at her; cases her
                  · obtain ⟨er, her⟩ := visitStmtList_unary_fails es st₁ h
                    exact ⟨er, by simp [visitStmt, ok_bind hcv, ok_bind ht, her]⟩
  | swhile c b =>
      simp only [containsUnaryStmt, Bool.or_eq_true] at hc
      cases hcv : visitExpr st c with
      | error er => exact ⟨er, by simp [visitStmt, error_bind hcv]⟩
      | ok ct =>
          cases hc with
          | inl h =>
              obtain ⟨er, her⟩ := visitExpr_unary_fails c st h
              rw [hcv] at her; cases her
          | inr h =>
              obtain ⟨er, her⟩ := visitStmtList_unary_fails b st h
              exact ⟨er, by simp [visitStmt, ok_bind hcv, her]⟩
  | sfor i c u b =>
      simp only [containsUnaryStmt, Bool.or_eq_true] at hc
      cases hi : visitStmt st i with
      | error er => exact ⟨er, by simp [visitStmt, error_bind hi]⟩
      | ok st₁ =>
          rcases hc with ((h | h) | h) | h
          · obtain ⟨er, her⟩ := visitStmt_unary_fails i st h
            rw [hi] at her; cases her
          · cases hcv : visitExpr st₁ c with
            | error er => exact ⟨er, by simp [visitStmt, ok_bind hi, error_bind hcv]⟩
            | ok ct =>
                obtain ⟨er, her⟩ := visitExpr_unary_fails c st₁ h
                rw [hcv] at her; cases her
          · cases hcv : visitExpr st₁ c with
            | error er => exact ⟨er, by simp [visitStmt, ok_bind hi, error_bind hcv]⟩
            | ok ct =>
                obtain ⟨er, her⟩ := visitStmt_unary_fails u st₁ h
                exact ⟨er, by simp [visitStmt, ok_bind hi, ok_bind hcv, error_bind her]⟩
          · cases hcv : visitExpr st₁ c with
            | error er => exact ⟨er, by simp [visitStmt, ok_bind hi, error_bind hcv]⟩
            | ok ct =>
                cases hu : visitStmt st₁ u with
                | error er =>
                    exact ⟨er, by simp [visitStmt, ok_bind hi, ok_bind hcv, error_bind hu]⟩
                | ok st₂ =>
                    obtain ⟨er, her⟩ := visitStmtList_unary_fails b st₂ h
                    exact ⟨er, by
                      simp [visitStmt, ok_bind hi, ok_bind hcv, ok_bind hu, her]⟩
  | sreturn v =>
      cases v with
      | none => simp [containsUnaryStmt] at hc
      | some e =>
          simp only [containsUnaryStmt] at hc
          obtain ⟨er, her⟩ := visitExpr_unary_fails e st hc
          exact ⟨er, by simp [visitStmt, error_bind her]⟩
  | sprint es =>
      simp only [containsUnaryStmt] at hc
      obtain ⟨er, her⟩ := visitExprs_unary_fails es st hc
      exact ⟨er, by simp [visitStmt, error_bind her]⟩
  | sinput n => simp [containsUnaryStmt] at hc
  | sexpr e =>
      simp only [containsUnaryStmt] at hc
      obtain ⟨er, her⟩ := visitExpr_unary_fails e st hc
      exact ⟨er, by simp [visitStmt, error_bind her]⟩
termination_by sizeOf s

/-- Visiting a statement list that contains a `UnaryOp` always fails. -/
theorem visitStmtList_unary_fails (l : List Stmt) (st : SymTab)
    (hc : containsUnaryStmts l = true) : ∃ er, visitStmtList st l = .error er := by
  cases l with
  | nil => simp [containsUnaryStmts] at hc
  | cons s rest =>
      simp only [containsUnaryStmts, Bool.or_eq_true] at hc
      cases hs : visitStmt st s with
      | error er => exact ⟨er, by simp [visitStmtList, error_bind hs]⟩
      | ok st₁ =>
          cases hc with
          | inl h =>
              obtain ⟨er, her⟩ := visitStmt_unary_fails s st h
              rw [hs] at her; cases her
          | inr h =>
              obtain ⟨er, her⟩ := visitStmtList_unary_fails rest st₁ h
              exact ⟨er, by simp [visitStmtList, ok_bind hs, her]⟩
termination_by sizeOf l

end

/-- Analysis of a function whose body contains a `UnaryOp` always fails. -/
theorem analyzeFunction_unary_fails (st : SymTab) (f : FunctionDef)
    (hc : containsUnaryStmts f.body = true) : ∃ er, analyzeFunction st f = .error er := by
  cases hp : declareParams st f.params with
  | error er => exact ⟨er, by simp [analyzeFunction, error_bind hp]⟩
  | ok st₁ =>
      obtain ⟨er, her⟩ := visitStmtList_unary_fails f.body st₁ hc
      exact ⟨er, by simp [analyzeFunction, ok_bind hp, error_bind her]⟩

/-- The second analysis pass fails whenever some function body contains a
`UnaryOp`. -/
theorem analyzeFunctions_unary_fails (fs : List FunctionDef) (st : SymTab)
    (hc : (fs.any fun f => containsUnaryStmts f.body) = true) :
    ∃ er, analyzeFunctions st fs = .error er := by
  cases fs with
  | nil => simp at hc
  | cons f fs' =>
      simp only [List.any_cons, Bool.or_eq_true] at hc
      cases haf : analyzeFunction st f with
      | error er => exact ⟨er, by simp [analyzeFunctions, error_bind haf]⟩
      | ok st₁ =>
          cases hc with
          | inl h =>
              obtain ⟨er, her⟩ := analyzeFunction_unary_fails st f h
              rw [haf] at her; cases her
          | inr h =>
              obtain ⟨er, her⟩ := analyzeFunctions_unary_fails fs' st₁ h
              exact ⟨er, by simp [analyzeFunctions, ok_bind haf, her]⟩

/-! ## C10 helper lemmas: the analyzer never touches the function map -/

theorem declareVariable_functions {st : SymTab} {n ty : String} {ini : Bool} {ln : Nat}
    {st' : SymTab} (h : st.declareVariable n ty ini ln = .ok st') :
    st'.functions = st.functions := by
  unfold SymTab.declareVariable at h
  cases halo : alookup st.symbols n <;> rw [halo] at h
  · cases h; rfl
  · cases h

theorem markInitialized_functions (st : SymTab) (n : String) :
    (st.markInitialized n).functions = st.functions := rfl

theorem declareParams_functions :
    ∀ (ps : List Param) (st st' : SymTab), declareParams st ps = .ok st' →
      st'.functions = st.functions := by
  intro ps
  induction ps with
  | nil => intro st st' h; cases h; rfl
  | cons p ps' ih =>
      intro st st' h
      simp only [declareParams] at h
      obtain ⟨st₁, h₁, h₂⟩ := bind_ok h
      rw [ih st₁ st' h₂, declareVariable_functions h₁]

mutual

/-- Statement visiting never modifies the function map. -/
theorem visitStmt_functions (s : Stmt) (st st' : SymTab)
    (h : visitStmt st s = .ok st') : st'.functions = st.functions := by
  cases s with
  | varDecl ty name ini =>
      simp only [visitStmt] at h
      cases hty : alookup TYPE_MAPPINGS ty <;> rw [hty] at h
      · cases h
      · cases ini with
        | none => exact declareVariable_functions h
        | some e =>
            simp only at h
            obtain ⟨it, h₁, h₂⟩ := bind_ok h
            by_cases hcompat : typesCompatible ty it = true
            · rw [if_pos hcompat] at h₂
              exact declareVariable_functions h₂
            · rw [if_neg hcompat] at h₂; cases h₂
  | assign name v =>
      simp only [visitStmt] at h
      by_cases hd : st.isDeclared name = true
      · rw [if_pos hd] at h
        obtain ⟨vt, h₁, h₂⟩ := bind_ok h
        split at h₂
        · split at h₂
          · have h₃ := Except.ok.inj h₂
            subst h₃; rfl
          · cases h₂
        · cases h₂
      · rw [if_neg hd] at h; cases h
  | sif c t e =>
      cases e with
      | none =>
          simp only [visitStmt] at h
          obtain ⟨ct, h₁, h₂⟩ := bind_ok h
          exact visitStmtList_functions t st st' h₂
      | some es =>
          simp only [visitStmt] at h
          obtain ⟨ct, h₁, h₂⟩ := bind_ok h
          obtain ⟨st₁, h₃, h₄⟩ := bind_ok h₂
          rw [visitStmtList_functions es st₁ st' h₄, visitStmtList_functions t st st₁ h₃]
  | swhile c b =>
      simp only [visitStmt] at h
      obtain ⟨ct, h₁, h₂⟩ := bind_ok h
      exact visitStmtList_functions b st st' h₂
  | sfor i c u b =>
      simp only [visitStmt] at h
      obtain ⟨st₁, h₁, h₂⟩ := bind_ok h
      obtain ⟨ct, h₃, h₄⟩ := bind_ok h₂
      obtain ⟨st₂, h₅, h₆⟩ := bind_ok h₄
      rw [visitStmtList_functions b st₂ st' h₆, visitStmt_functions u st₁ st₂ h₅,
        visitStmt_functions i st st₁ h₁]
  | sreturn v =>
      cases v with
      | none =>
          simp only [visitStmt] at h
          have h₁ := Except.ok.inj h
          subst h₁; rfl
      | some e =>
          simp only [visitStmt] at h
          obtain ⟨vt, h₁, h₂⟩ := bind_ok h
          have h₃ := Except.ok.inj h₂
          subst h₃; rfl
  | sprint es =>
      simp only [visitStmt] at h
      obtain ⟨u, h₁, h₂⟩ := bind_ok h
      have h₃ := Except.ok.inj h₂
      subst h₃; rfl
  | sinput n =>
      simp only [visitStmt] at h
      by_cases hd : st.isDeclared n = true
      · rw [if_pos hd] at h
        have h₁ := Except.ok.inj h
        subst h₁; rfl
      · rw [if_neg hd] at h; cases h
  | sexpr e =>
      simp only [visitStmt] at h
      obtain ⟨vt, h₁, h₂⟩ := bind_ok h
      have h₃ := Except.ok.inj h₂
      subst h₃; rfl
termination_by sizeOf s

/-- Statement-list visiting never modifies the function map. -/
theorem visitStmtList_functions (l : List Stmt) (st st' : SymTab)
    (h : visitStmtList st l = .ok st') : st'.functions = st.functions := by
  cases l with
  | nil => cases h; rfl
  | cons s rest =>
      simp only [visitStmtList] at h
      obtain ⟨st₁, h₁, h₂⟩ := bind_ok h
      rw [visitStmtList_functions rest st₁ st' h₂, visitStmt_functions s st st₁ h₁]
termination_by sizeOf l

end

/-- Key preservation of the post-body restore: the restored map has
exactly the saved keys, in order. -/
theorem restoreSymbols_fst (saved after : List (String × SymbolInfo)) :
    (restoreSymbols saved after).map Prod.fst = saved.map Prod.fst := by
  unfold restoreSymbols
  rw [List.map_map]
  refine List.map_congr_left ?_
  intro kv _
  cases halo : alookup after kv.1 <;> simp [Function.comp, halo]

/-! ## C10: the frame of `analyze_function` -/

/-- C10: when `analyze_function` returns without error, the variable map
holds exactly the same names (in the same order) as before the call — the
parameters and all body-declared variables are gone — and the function
namespace is untouched. -/
theorem c10_analyze_function_frame :
    ∀ (st : SymTab) (f : FunctionDef) (st' : SymTab),
      analyzeFunction st f = .ok st' →
      st'.symbols.map Prod.fst = st.symbols.map Prod.fst ∧
      st'.functions = st.functions := by
  intro st f st' h
  simp only [analyzeFunction] at h
  obtain ⟨st₁, h₁, h₂⟩ := bind_ok h
  obtain ⟨st₂, h₃, h₄⟩ := bind_ok h₂
  have h₅ := Except.ok.inj h₄
  subst h₅
  refine ⟨restoreSymbols_fst st.symbols st₂.symbols, ?_⟩
  show st₂.functions = st.functions
  rw [visitStmtList_functions f.body st₁ st₂ h₃, declareParams_functions f.params st st₁ h₁]

/-- The concrete result of analyzing `demoFunc` from `demoSymTab`. -/
def demoAnalyzed : SymTab :=
  match analyzeFunction demoSymTab demoFunc with
  | .ok st => st
  | .error _ => demoSymTab

/-- C10 witness: the frame property evaluated on a concrete table and
function (one parameter, one local declaration, one assignment to the
outer variable `g`). -/
theorem c10_analyze_function_frame_witness :
    demoAnalyzed.symbols.map Prod.fst = demoSymTab.symbols.map Prod.fst ∧
    demoAnalyzed.functions = demoSymTab.functions :=
  c10_analyze_function_frame demoSymTab demoFunc demoAnalyzed (by rfl)

/-! ## C9: `UnaryOp` is rejected by both phases -/

/-- C9: a `UnaryOp` anywhere in a program makes semantic analysis fail
with a `SemanticError` (the reflective dispatch finds no
`visit_UnaryOp`), and code generation of a `UnaryOp` expression fails
with a `CodeGenError`, despite `UnaryOp` being a declared AST variant. -/
theorem c9_unaryop_always_rejected :
    (∀ p : Program, containsUnaryProgram p = true → ∃ er, analyze p = .error er) ∧
    (∀ (s : GenState) (o : String) (x : Expr),
      genExpr s (.unop o x) = .error .unsupportedExpression) := by
  constructor
  · intro p hc
    unfold containsUnaryProgram at hc
    cases hp : pass1 ⟨[], []⟩ false p.functions with
    | error er => exact ⟨er, by simp [analyze, error_bind hp]⟩
    | ok pr =>
        obtain ⟨st0, hm⟩ := pr
        cases hm with
        | false => exact ⟨.missingMain, by simp [analyze, ok_bind hp]⟩
        | true =>
            obtain ⟨er, her⟩ := analyzeFunctions_unary_fails p.functions st0 hc
            exact ⟨er, by simp [analyze, ok_bind hp, her]⟩
  · intro s o x
    simp [genExpr]

/-- C9 witness: a concrete program with a unary operation fails analysis,
and the generator rejects a concrete `UnaryOp` expression. -/
theorem c9_unaryop_always_rejected_witness :
    eIsOk (analyze c9Program) = false ∧
    genExpr initGenState (.unop "~" (.lit (.vInt 1))) = .error .unsupportedExpression := by
  constructor
  · obtain ⟨er, her⟩ := c9_unaryop_always_rejected.1 c9Program (by rfl)
    rw [her]; rfl
  · exact c9_unaryop_always_rejected.2 initGenState "~" (.lit (.vInt 1))

/-! ## C3 and C5 counterexamples -/

/-- C3 counterexample: for a function whose declared return type is the
string-pointer type and whose body has no return, the synthesized default
return is `ret void` — an LLVM void return carrying no value — not a
return of the zero value of the string-pointer type. -/
theorem c3_string_default_return_is_void :
    (generate c3Program initGenState).toOption.map (fun m => m.funcs) =
      some [⟨"main", .ptr, [], [[.retVoid]]⟩] := by rfl

/-- C5 counterexample: for a while loop whose condition is a float
literal (runtime type `double`, not boolean), the emitted `cond` block
contains only the conditional branch on the raw double-typed value — no
compare-against-zero normalization is emitted. -/
theorem c5_double_condition_not_normalized :
    (generate c5Program initGenState).toOption.map (fun m => m.funcs.map LFunc.blocks) =
      some [[[.br 1], [.cbr (.cDouble 1) 2 3], [.br 1], [.ret (.cInt .i32 0)]]] := by rfl

/-! ## Block-level lemmas for the code generator -/

/-- Number of terminator instructions in a block. -/
def countTerm (bb : List Instr) : Nat := bb.countP Instr.isTerminator

theorem countTerm_append (a b : List Instr) :
    countTerm (a ++ b) = countTerm a + countTerm b := List.countP_append _ _ _

theorem hasTerm_append (a b : List Instr) :
    hasTerm (a ++ b) = (hasTerm a || hasTerm b) := List.any_append

theorem hasTerm_false_countTerm {bb : List Instr} (h : hasTerm bb = false) :
    countTerm bb = 0 := by
  rw [countTerm, List.countP_eq_zero]
  intro a ha
  have := (List.any_eq_false.mp h) a ha
  simpa using this

theorem hasTerm_of_countTerm_pos {bb : List Instr} (h : 0 < countTerm bb) :
    hasTerm bb = true := by
  by_contra hf
  rw [hasTerm_false_countTerm (Bool.eq_false_iff.mpr hf)] at h
  omega

theorem countTerm_noTerm {t : List Instr} (h : countTerm t = 0) :
    hasTerm t = false := by
  rw [hasTerm, List.any_eq_false]
  intro a ha hterm
  have := List.countP_eq_zero.mp h a ha
  simp [hterm] at this

theorem updateAt_length (l : List (List Instr)) (n : Nat) (ins : Instr) :
    (updateAt l n ins).length = l.length := by
  induction l generalizing n with
  | nil => rfl
  | cons b bs ih => cases n <;> simp [updateAt, ih]

theorem updateAt_get_self (l : List (List Instr)) (n : Nat) (ins : Instr) :
    (updateAt l n ins).get? n = (l.get? n).map (fun bb => bb ++ [ins]) := by
  induction l generalizing n with
  | nil => rfl
  | cons b bs ih => cases n with
    | zero => rfl
    | succ m => simpa [updateAt] using ih m

theorem updateAt_get_ne (l : List (List Instr)) (n m : Nat) (ins : Instr) (h : m ≠ n) :
    (updateAt l n ins).get? m = l.get? m := by
  induction l generalizing n m with
  | nil => rfl
  | cons b bs ih =>
      cases n with
      | zero =>
          cases m with
          | zero => exact absurd rfl h
          | succ k => rfl
      | succ n' =>
          cases m with
          | zero => rfl
          | succ k => simpa [updateAt] using ih n' k (by omega)

theorem emit_cur (s : GenState) (i : Instr) : (emit s i).cur = s.cur := rfl

theorem emit_len (s : GenState) (i : Instr) :
    (emit s i).blocks.length = s.blocks.length := updateAt_length _ _ _

theorem getB_emit_self (s : GenState) (i : Instr) (h : s.cur < s.blocks.length) :
    getB (emit s i) s.cur = getB s s.cur ++ [i] := by
  unfold getB emit
  simp only
  rw [updateAt_get_self]
  cases hg : s.blocks.get? s.cur with
  | none => exact absurd (List.get?_eq_none.mp hg) (by omega)
  | some bb => rfl

theorem getB_emit_ne (s : GenState) (i : Instr) (j : Nat) (h : j ≠ s.cur) :
    getB (emit s i) j = getB s j := by
  unfold getB emit
  simp only
  rw [updateAt_get_ne _ _ _ _ h]

theorem getB_nil_of_ge (s : GenState) (j : Nat) (h : s.blocks.length ≤ j) :
    getB s j = [] := by
  unfold getB
  rw [List.get?_eq_none.mpr h]
  rfl

theorem emitTerm_ok {s : GenState} {i : Instr} {s' : GenState}
    (h : emitTerm s i = .ok s') :
    hasTerm (getB s s.cur) = false ∧ s' = emit s i := by
  unfold emitTerm at h
  by_cases hb : hasTerm (getB s s.cur) = true
  · rw [if_pos hb] at h; cases h
  · rw [if_neg hb] at h
    exact ⟨by simpa using hb, (Except.ok.inj h).symm⟩

/-! ## Expression-level emission spec: appends non-terminators to the
current block and leaves the block layout unchanged -/

/-- The footprint of expression evaluation on the block structure: the
block list keeps its length, the builder keeps its position, all other
blocks are untouched, and the current block only gains non-terminator
instructions. -/
structure ExprStep (s s' : GenState) : Prop where
  len : s'.blocks.length = s.blocks.length
  cur : s'.cur = s.cur
  frame : ∀ j, j ≠ s.cur → getB s' j = getB s j
  app : ∃ t, getB s' s.cur = getB s s.cur ++ t ∧ countTerm t = 0

theorem exprStep_id (s : GenState) : ExprStep s s :=
  ⟨rfl, rfl, fun _ _ => rfl, ⟨[], by simp, rfl⟩⟩

/-- A state change that does not touch blocks or position. -/
theorem exprStep_same {s s' : GenState} (hb : s'.blocks = s.blocks) (hc : s'.cur = s.cur) :
    ExprStep s s' :=
  ⟨by rw [hb], hc, fun j _ => by unfold getB; rw [hb],
   ⟨[], by unfold getB; rw [hb]; simp, rfl⟩⟩

theorem exprStep_trans {a b c : GenState} (h₁ : ExprStep a b) (h₂ : ExprStep b c) :
    ExprStep a c := by
  refine ⟨h₂.len.trans h₁.len, h₂.cur.trans h₁.cur, ?_, ?_⟩
  · intro j hj
    rw [h₂.frame j (h₁.cur ▸ hj), h₁.frame j hj]
  · obtain ⟨t₁, ht₁, hz₁⟩ := h₁.app
    obtain ⟨t₂, ht₂, hz₂⟩ := h₂.app
    refine ⟨t₁ ++ t₂, ?_, by rw [countTerm_append, hz₁, hz₂]⟩
    rw [← List.append_assoc, ← ht₁, ← h₁.cur, ht₂]

theorem exprStep_emit (s : GenState) (i : Instr) (hno : i.isTerminator = false) :
    ExprStep s (emit s i) := by
  refine ⟨emit_len s i, rfl, fun j hj => getB_emit_ne s i j hj, ?_⟩
  by_cases h : s.cur < s.blocks.length
  · exact ⟨[i], getB_emit_self s i h, by simp [countTerm, hno]⟩
  · refine ⟨[], ?_, rfl⟩
    rw [getB_nil_of_ge s s.cur (by omega), List.append_nil,
      getB_nil_of_ge (emit s i) s.cur (by rw [emit_len]; omega)]

/-- Emitting into a state that differs only outside the block structure. -/
theorem exprStep_emit_any {s s' : GenState} (hb : s'.blocks = s.blocks)
    (hc : s'.cur = s.cur) (i : Instr) (hno : i.isTerminator = false) :
    ExprStep s (emit s' i) :=
  exprStep_trans (exprStep_same hb hc) (exprStep_emit s' i hno)

theorem exprStep_emitVal_base (s : GenState) (i : Instr) (t : LType)
    (hno : i.isTerminator = false) : ExprStep s (emitVal s i t).2 := by
  show ExprStep s (emit { s with regCounter := s.regCounter + 1 } i)
  exact exprStep_emit_any (by rfl) (by rfl) i hno

theorem exprStep_emitVal {s s' : GenState} (h : ExprStep s s') (i : Instr) (t : LType)
    (hno : i.isTerminator = false) : ExprStep s (emitVal s' i t).2 :=
  exprStep_trans h (exprStep_emitVal_base s' i t hno)

/-- Emitting a fresh register into a state that differs only outside the
block structure. -/
theorem exprStep_emitVal_any {s s' : GenState} (hb : s'.blocks = s.blocks)
    (hc : s'.cur = s.cur) (i : Instr) (t : LType) (hno : i.isTerminator = false) :
    ExprStep s (emitVal s' i t).2 :=
  exprStep_trans (exprStep_same hb hc) (exprStep_emitVal_base s' i t hno)

theorem exprStep_getString_base (s : GenState) (str : String) :
    ExprStep s (getStringConstant s str).2 := by
  show ExprStep s (emitVal { s with
      stringCounter := s.stringCounter + 1,
      module := { s.module with globals := s.module.globals ++ [(s.stringCounter, str)] } }
    (.bitcast s.stringCounter) .ptr).2
  exact exprStep_emitVal_any (by rfl) (by rfl) (.bitcast s.stringCounter) .ptr (by rfl)

theorem exprStep_getString {s s' : GenState} (h : ExprStep s s') (str : String) :
    ExprStep s (getStringConstant s' str).2 :=
  exprStep_trans h (exprStep_getString_base s' str)

theorem exprStep_genLiteral (s : GenState) (v : LitVal) :
    ExprStep s (genLiteral s v).2 := by
  cases v with
  | vInt n => exact exprStep_id s
  | vFloat n => exact exprStep_id s
  | vBool b => exact exprStep_id s
  | vStr str => exact exprStep_getString_base s str

theorem exprStep_concat (s : GenState) (l r : LValue) :
    ExprStep s (concatStrings s l r).2 := by
  unfold concatStrings
  dsimp only
  refine exprStep_emitVal ?_ _ _ (by rfl)
  refine exprStep_emitVal ?_ _ _ (by rfl)
  refine exprStep_emitVal ?_ _ _ (by rfl)
  refine exprStep_emitVal ?_ _ _ (by rfl)
  refine exprStep_emitVal ?_ _ _ (by rfl)
  refine exprStep_emitVal ?_ _ _ (by rfl)
  exact exprStep_emitVal_base _ _ _ (by rfl)

theorem exprStep_compare (s : GenState) (l r : LValue) :
    ExprStep s (compareStrings s l r).2 := by
  unfold compareStrings
  dsimp only
  refine exprStep_emitVal (exprStep_emitVal ?_ _ _ (by rfl)) _ _ (by rfl)
  split <;> exact exprStep_same rfl rfl

theorem genBinOpConv_step {s : GenState} {conv : String} {l r v : LValue} {s' : GenState}
    (h : genBinOpConv s conv l r = .ok (v, s')) : ExprStep s s' := by
  unfold genBinOpConv at h
  split at h
  · split at h
    · have h' := Except.ok.inj h
      rw [show s' = (concatStrings s l r).2 from congrArg Prod.snd h'.symm]
      exact exprStep_concat s l r
    · have h' := Except.ok.inj h
      rw [show s' = (emitVal s (.binop "add" l r) l.lty).2 from congrArg Prod.snd h'.symm]
      exact exprStep_emitVal_base _ _ _ (by rfl)
  · split at h
    · have h' := Except.ok.inj h
      rw [show s' = (emitVal s (.binop "sub" l r) l.lty).2 from congrArg Prod.snd h'.symm]
      exact exprStep_emitVal_base _ _ _ (by rfl)
    · split at h
      · have h' := Except.ok.inj h
        rw [show s' = (emitVal s (.binop "mul" l r) l.lty).2 from congrArg Prod.snd h'.symm]
        exact exprStep_emitVal_base _ _ _ (by rfl)
      · split at h
        · have h' := Except.ok.inj h
          rw [show s' = (emitVal s (.binop "sdiv" l r) l.lty).2
            from congrArg Prod.snd h'.symm]
          exact exprStep_emitVal_base _ _ _ (by rfl)
        · split at h
          · have h' := Except.ok.inj h
            rw [show s' = (emitVal s (.icmp ">" l r) .i1).2 from congrArg Prod.snd h'.symm]
            exact exprStep_emitVal_base _ _ _ (by rfl)
          · split at h
            · have h' := Except.ok.inj h
              rw [show s' = (emitVal s (.icmp "<" l r) .i1).2
                from congrArg Prod.snd h'.symm]
              exact exprStep_emitVal_base _ _ _ (by rfl)
            · split at h
              · split at h
                · have h' := Except.ok.inj h
                  rw [show s' = (compareStrings s l r).2 from congrArg Prod.snd h'.symm]
                  exact exprStep_compare s l r
                · have h' := Except.ok.inj h
                  rw [show s' = (emitVal s (.icmp "==" l r) .i1).2
                    from congrArg Prod.snd h'.symm]
                  exact exprStep_emitVal_base _ _ _ (by rfl)
              · cases h

theorem genBinOpVals_step {s : GenState} {o : String} {l r v : LValue} {s' : GenState}
    (h : genBinOpVals s o l r = .ok (v, s')) : ExprStep s s' := by
  unfold genBinOpVals at h
  exact genBinOpConv_step h

mutual

/-- Expression generation satisfies the emission footprint spec. -/
theorem genExpr_step (e : Expr) (s : GenState) (v : LValue) (s' : GenState)
    (h : genExpr s e = .ok (v, s')) : ExprStep s s' := by
  cases e with
  | lit lv =>
      simp only [genExpr] at h
      have h' := Except.ok.inj h
      rw [show s' = (genLiteral s lv).2 from congrArg Prod.snd h'.symm]
      exact exprStep_genLiteral s lv
  | ident name =>
      simp only [genExpr] at h
      split at h
      · cases h
      · have h' := Except.ok.inj h
        rw [show s' = (emitVal s (.load name) _).2 from congrArg Prod.snd h'.symm]
        exact exprStep_emitVal_base _ _ _ (by rfl)
  | binop o l r =>
      simp only [genExpr] at h
      obtain ⟨p₁, h₁, h⟩ := bind_ok h
      obtain ⟨lv, s₁⟩ := p₁
      obtain ⟨p₂, h₂, h⟩ := bind_ok h
      obtain ⟨rv, s₂⟩ := p₂
      exact exprStep_trans (exprStep_trans (genExpr_step l s lv s₁ h₁)
        (genExpr_step r s₁ rv s₂ h₂)) (genBinOpVals_step h)
  | unop o x => simp only [genExpr] at h; cases h
  | call fname args =>
      simp only [genExpr] at h
      split at h
      · cases h
      · obtain ⟨p₁, h₁, h⟩ := bind_ok h
        obtain ⟨vs, s₁⟩ := p₁
        have h' := Except.ok.inj h
        rw [show s' = (emitVal s₁ _ _).2 from congrArg Prod.snd h'.symm]
        exact exprStep_emitVal (genArgs_step args s vs s₁ h₁) _ _ (by rfl)

/-- Argument-list generation satisfies the emission footprint spec. -/
theorem genArgs_step (es : List Expr) (s : GenState) (vs : List LValue) (s' : GenState)
    (h : genArgs s es = .ok (vs, s')) : ExprStep s s' := by
  cases es with
  | nil =>
      simp only [genArgs] at h
      have h' := Except.ok.inj h
      rw [show s' = s from congrArg Prod.snd h'.symm]
      exact exprStep_id s
  | cons e es' =>
      simp only [genArgs] at h
      obtain ⟨p₁, h₁, h⟩ := bind_ok h
      obtain ⟨v₁, s₁⟩ := p₁
      obtain ⟨p₂, h₂, h⟩ := bind_ok h
      obtain ⟨vs₂, s₂⟩ := p₂
      have h' := Except.ok.inj h
      rw [show s' = s₂ from congrArg Prod.snd h'.symm]
      exact exprStep_trans (genExpr_step e s v₁ s₁ h₁) (genArgs_step es' s₁ vs₂ s₂ h₂)

end

theorem printValue_step (s : GenState) (v : LValue) : ExprStep s (printValue s v) := by
  unfold printValue
  split
  · try dsimp only
    exact exprStep_emitVal (exprStep_getString_base s _) _ _ (by rfl)
  · split
    · try dsimp only
      exact exprStep_emitVal (exprStep_getString_base s _) _ _ (by rfl)
    · split
      · try dsimp only
        exact exprStep_emitVal
          (exprStep_getString (exprStep_emitVal_base s _ _ (by rfl)) _) _ _ (by rfl)
      · split
        · try dsimp only
          exact exprStep_emitVal (exprStep_getString_base s _) _ _ (by rfl)
        · try dsimp only
          exact exprStep_emitVal (exprStep_getString_base s _) _ _ (by rfl)

theorem printValue_step_after {s s' : GenState} (h : ExprStep s s') (v : LValue) :
    ExprStep s (printValue s' v) := exprStep_trans h (printValue_step s' v)

theorem genPrintExprs_step (es : List Expr) (s s' : GenState)
    (h : genPrintExprs s es = .ok s') : ExprStep s s' := by
  induction es generalizing s with
  | nil =>
      simp only [genPrintExprs] at h
      rw [← Except.ok.inj h]
      exact exprStep_id s
  | cons e es' ih =>
      cases e with
      | lit lv =>
          cases lv with
          | vStr str =>
              simp only [genPrintExprs] at h
              exact exprStep_trans
                (exprStep_emitVal (exprStep_getString_base s str) _ _ (by rfl)) (ih _ h)
          | vInt n =>
              simp only [genPrintExprs] at h
              obtain ⟨p, h₁, h₂⟩ := bind_ok h
              obtain ⟨v, s₁⟩ := p
              exact exprStep_trans (printValue_step_after (genExpr_step _ s v s₁ h₁) v)
                (ih _ h₂)
          | vFloat n =>
              simp only [genPrintExprs] at h
              obtain ⟨p, h₁, h₂⟩ := bind_ok h
              obtain ⟨v, s₁⟩ := p
              exact exprStep_trans (printValue_step_after (genExpr_step _ s v s₁ h₁) v)
                (ih _ h₂)
          | vBool b =>
              simp only [genPrintExprs] at h
              obtain ⟨p, h₁, h₂⟩ := bind_ok h
              obtain ⟨v, s₁⟩ := p
              exact exprStep_trans (printValue_step_after (genExpr_step _ s v s₁ h₁) v)
                (ih _ h₂)
      | ident name =>
          simp only [genPrintExprs] at h
          obtain ⟨p, h₁, h₂⟩ := bind_ok h
          obtain ⟨v, s₁⟩ := p
          exact exprStep_trans (printValue_step_after (genExpr_step _ s v s₁ h₁) v) (ih _ h₂)
      | binop o l r =>
          simp only [genPrintExprs] at h
          obtain ⟨p, h₁, h₂⟩ := bind_ok h
          obtain ⟨v, s₁⟩ := p
          exact exprStep_trans (printValue_step_after (genExpr_step _ s v s₁ h₁) v) (ih _ h₂)
      | unop o x =>
          simp only [genPrintExprs] at h
          obtain ⟨p, h₁, h₂⟩ := bind_ok h
          obtain ⟨v, s₁⟩ := p
          exact exprStep_trans (printValue_step_after (genExpr_step _ s v s₁ h₁) v) (ih _ h₂)
      | call fn args =>
          simp only [genPrintExprs] at h
          obtain ⟨p, h₁, h₂⟩ := bind_ok h
          obtain ⟨v, s₁⟩ := p
          exact exprStep_trans (printValue_step_after (genExpr_step _ s v s₁ h₁) v) (ih _ h₂)

theorem genPrintStmt_step (s : GenState) (es : List Expr) (s' : GenState)
    (h : genPrintStmt s es = .ok s') : ExprStep s s' := by
  simp only [genPrintStmt] at h
  obtain ⟨s₁, h₁, h₂⟩ := bind_ok h
  rw [← Except.ok.inj h₂]
  try dsimp only
  exact exprStep_emitVal (exprStep_getString (genPrintExprs_step es s s₁ h₁) _) _ _ (by rfl)

theorem genInput_step (s : GenState) (name : String) (s' : GenState)
    (h : genInput s name = .ok s') : ExprStep s s' := by
  unfold genInput at h
  split at h
  · cases h
  · split at h
    · rw [← Except.ok.inj h]
      try dsimp only
      exact exprStep_emitVal (exprStep_getString_base s _) _ _ (by rfl)
    · split at h
      · rw [← Except.ok.inj h]
        try dsimp only
        exact exprStep_emitVal (exprStep_getString_base s _) _ _ (by rfl)
      · split at h
        · rw [← Except.ok.inj h]
          try dsimp only
          refine exprStep_trans ?_ (exprStep_emit _ (.store _ name) (by rfl))
          exact exprStep_emitVal
            (exprStep_getString (exprStep_emitVal_base s _ _ (by rfl)) _) _ _ (by rfl)
        · rw [← Except.ok.inj h]
          try dsimp only
          exact exprStep_emitVal (exprStep_getString_base s _) _ _ (by rfl)

/-! ## Statement-level emission spec -/

/-- Every block holds at most one terminator. -/
def oneMax (s : GenState) : Prop := ∀ j, countTerm (getB s j) ≤ 1

/-- The footprint of statement generation on the block structure: blocks
are only appended; the builder lands on a valid block; old blocks other
than the entry position are untouched; the entry position only gains
instructions; the position either stays or moves to a freshly created
block; every freshly created block other than the final position is
terminated; if the position moved, the old current block was terminated;
and the at-most-one-terminator bound is preserved. -/
structure StmtStep (s s' : GenState) : Prop where
  len : s.blocks.length ≤ s'.blocks.length
  curlt : s'.cur < s'.blocks.length
  frame : ∀ j, j < s.blocks.length → j ≠ s.cur → getB s' j = getB s j
  app : ∃ t, getB s' s.cur = getB s s.cur ++ t
  curmv : s'.cur = s.cur ∨ s.blocks.length ≤ s'.cur
  newtm : ∀ j, s.blocks.length ≤ j → j < s'.blocks.length → j ≠ s'.cur →
      hasTerm (getB s' j) = true
  oldtm : s'.cur ≠ s.cur → hasTerm (getB s' s.cur) = true
  onemax : oneMax s → oneMax s'

theorem stmtStep_trans {a b c : GenState} (ha : a.cur < a.blocks.length)
    (h₁ : StmtStep a b) (h₂ : StmtStep b c) : StmtStep a c := by
  have hbne : ∀ j, j < a.blocks.length → j ≠ a.cur → j ≠ b.cur := by
    intro j hj _
    cases h₁.curmv with
    | inl he => rw [he]; omega
    | inr hge => omega
  refine ⟨h₁.len.trans h₂.len, h₂.curlt, ?_, ?_, ?_, ?_, ?_, fun hm => h₂.onemax (h₁.onemax hm)⟩
  · intro j hj hne
    rw [h₂.frame j (lt_of_lt_of_le hj h₁.len) (hbne j hj hne), h₁.frame j hj hne]
  · cases h₁.curmv with
    | inl he =>
        obtain ⟨t₁, ht₁⟩ := h₁.app
        obtain ⟨t₂, ht₂⟩ := h₂.app
        rw [he] at ht₂
        exact ⟨t₁ ++ t₂, by rw [← List.append_assoc, ← ht₁, ht₂]⟩
    | inr hge =>
        obtain ⟨t₁, ht₁⟩ := h₁.app
        refine ⟨t₁, ?_⟩
        rw [h₂.frame a.cur (lt_of_lt_of_le ha h₁.len) (by omega), ht₁]
  · cases h₂.curmv with
    | inl he =>
        cases h₁.curmv with
        | inl he' => exact Or.inl (he.trans he')
        | inr hge => exact Or.inr (by omega)
    | inr hge => exact Or.inr (le_trans h₁.len hge)
  · intro j hj₁ hj₂ hne
    by_cases hb : b.blocks.length ≤ j
    · exact h₂.newtm j hb hj₂ hne
    · push_neg at hb
      by_cases hbc : j = b.cur
      · have hcc : c.cur ≠ b.cur := by rw [← hbc]; exact fun he => hne he.symm
        rw [hbc]
        exact h₂.oldtm hcc
      · rw [h₂.frame j hb hbc]
        exact h₁.newtm j hj₁ hb hbc
  · intro hne
    cases h₁.curmv with
    | inl he =>
        have : c.cur ≠ b.cur := by rw [he]; exact hne
        rw [← he]
        exact h₂.oldtm this
    | inr hge =>
        have hne' : (a.cur : Nat) ≠ b.cur := by omega
        rw [h₂.frame a.cur (lt_of_lt_of_le ha h₁.len) hne']
        exact h₁.oldtm (by omega)

theorem stmtStep_of_exprStep {s s' : GenState} (hcur : s.cur < s.blocks.length)
    (h : ExprStep s s') : StmtStep s s' := by
  obtain ⟨t, ht, hz⟩ := h.app
  refine ⟨by rw [h.len], ?_, fun j _ hne => h.frame j hne, ⟨t, ht⟩, Or.inl h.cur, ?_, ?_, ?_⟩
  · rw [h.len, h.cur]; exact hcur
  · intro j hj₁ hj₂ _
    rw [h.len] at hj₂; omega
  · intro hne; exact absurd h.cur hne
  · intro hm j
    by_cases hj : j = s.cur
    · rw [hj, ht, countTerm_append, hz]
      have := hm s.cur
      omega
    · rw [h.frame j hj]; exact hm j

theorem positionAt_getB (s : GenState) (i j : Nat) : getB (positionAt s i) j = getB s j := rfl

theorem getB_appendBlock_lt (s : GenState) (j : Nat) (h : j < s.blocks.length) :
    getB (appendBlock s).2 j = getB s j := by
  unfold getB appendBlock
  simp only
  rw [List.get?_append h]

theorem getB_appendBlock_len (s : GenState) :
    getB (appendBlock s).2 s.blocks.length = [] := by
  unfold getB appendBlock
  simp only
  rw [List.get?_append_right (le_refl _)]
  simp

theorem guardBr_cur (s : GenState) (k : Nat) : (guardBr s k).cur = s.cur := by
  unfold guardBr; split <;> rfl

theorem guardBr_len (s : GenState) (k : Nat) :
    (guardBr s k).blocks.length = s.blocks.length := by
  unfold guardBr; split
  · rfl
  · exact emit_len s _

theorem guardBr_getB_ne (s : GenState) (k : Nat) (j : Nat) (h : j ≠ s.cur) :
    getB (guardBr s k) j = getB s j := by
  unfold guardBr; split
  · rfl
  · exact getB_emit_ne s _ j h

theorem guardBr_term (s : GenState) (k : Nat) (hcur : s.cur < s.blocks.length) :
    hasTerm (getB (guardBr s k) s.cur) = true := by
  unfold guardBr
  split
  · assumption
  · rw [getB_emit_self s _ hcur, hasTerm_append]
    simp [hasTerm, Instr.isTerminator]

theorem guardBr_app (s : GenState) (k : Nat) :
    ∃ t, getB (guardBr s k) s.cur = getB s s.cur ++ t := by
  unfold guardBr
  split
  · exact ⟨[], by simp⟩
  · by_cases hcur : s.cur < s.blocks.length
    · exact ⟨[.br k], getB_emit_self s _ hcur⟩
    · refine ⟨[], ?_⟩
      rw [getB_nil_of_ge s s.cur (by omega), List.append_nil,
        getB_nil_of_ge (emit s _) s.cur (by rw [emit_len]; omega)]

theorem countTerm_single_le (i : Instr) : countTerm [i] ≤ 1 := by
  by_cases hti : i.isTerminator = true <;>
    simp [countTerm, List.countP_cons, List.countP_nil, hti]

theorem guardBr_onemax {s : GenState} (k : Nat) (hm : oneMax s) : oneMax (guardBr s k) := by
  unfold guardBr
  split
  · exact hm
  next hf =>
    intro j
    by_cases hj : j = s.cur
    · subst hj
      by_cases hcur : s.cur < s.blocks.length
      · rw [getB_emit_self s _ hcur, countTerm_append]
        have hz : countTerm (getB s s.cur) = 0 :=
          hasTerm_false_countTerm (Bool.eq_false_iff.mpr hf)
        have := countTerm_single_le (Instr.br k)
        omega
      · rw [getB_nil_of_ge (emit s _) s.cur (by rw [emit_len]; omega)]
        simp [countTerm]
    · rw [getB_emit_ne s _ j hj]
      exact hm j

theorem emitTerm_hasTerm {s : GenState} {i : Instr} {s' : GenState}
    (hterm : i.isTerminator = true) (hcur : s.cur < s.blocks.length)
    (h : emitTerm s i = .ok s') : hasTerm (getB s' s.cur) = true := by
  obtain ⟨hno, he⟩ := emitTerm_ok h
  rw [he, getB_emit_self s i hcur, hasTerm_append]
  simp [hasTerm, hterm]

theorem emitTerm_onemax {s : GenState} {i : Instr} {s' : GenState}
    (h : emitTerm s i = .ok s') (hm : oneMax s) : oneMax s' := by
  obtain ⟨hno, he⟩ := emitTerm_ok h
  subst he
  intro j
  by_cases hj : j = s.cur
  · subst hj
    by_cases hcur : s.cur < s.blocks.length
    · rw [getB_emit_self s i hcur, countTerm_append, hasTerm_false_countTerm hno]
      have := countTerm_single_le i
      omega
    · rw [getB_nil_of_ge (emit s i) s.cur (by rw [emit_len]; omega)]
      simp [countTerm]
  · rw [getB_emit_ne s i j hj]
    exact hm j

theorem stmtStep_refl {s : GenState} (hcur : s.cur < s.blocks.length) : StmtStep s s :=
  ⟨le_refl _, hcur, fun _ _ _ => rfl, ⟨[], by simp⟩, Or.inl rfl,
   fun j hj₁ hj₂ _ => by omega, fun hne => absurd rfl hne, fun hm => hm⟩

theorem oneMax_positionAt {s : GenState} (i : Nat) (hm : oneMax s) :
    oneMax (positionAt s i) := fun j => hm j

/-- Evaluating an expression and then emitting a terminator at the
unchanged position is a statement step that stays in place. -/
theorem stmtStep_expr_emitTerm {s s₁ s' : GenState} {i : Instr}
    (hcur : s.cur < s.blocks.length) (he : ExprStep s s₁)
    (ht : emitTerm s₁ i = .ok s') : StmtStep s s' := by
  obtain ⟨hno, hrw⟩ := emitTerm_ok ht
  subst hrw
  have hcur₁ : s₁.cur < s₁.blocks.length := by rw [he.len, he.cur]; exact hcur
  obtain ⟨t, hap, hz⟩ := he.app
  refine ⟨by rw [emit_len, he.len], ?_, ?_, ?_, ?_, ?_, ?_, ?_⟩
  · rw [emit_len, emit_cur, he.len, he.cur]; exact hcur
  · intro j hj hne
    rw [getB_emit_ne s₁ i j (by rw [he.cur]; exact hne), he.frame j hne]
  · refine ⟨t ++ [i], ?_⟩
    rw [← List.append_assoc, ← hap, ← he.cur, getB_emit_self s₁ i hcur₁]
  · exact Or.inl (by rw [emit_cur, he.cur])
  · intro j hj₁ hj₂ _
    rw [emit_len, he.len] at hj₂; omega
  · intro hne
    rw [emit_cur, he.cur] at hne
    exact absurd rfl hne
  · intro hm
    exact emitTerm_onemax ht ((stmtStep_of_exprStep hcur he).onemax hm)

theorem oneMax_appendBlock {s : GenState} (hm : oneMax s) : oneMax (appendBlock s).2 := by
  intro j
  rcases lt_trichotomy j s.blocks.length with hj | hj | hj
  · rw [getB_appendBlock_lt s j hj]; exact hm j
  · subst hj; rw [getB_appendBlock_len s]; simp [countTerm]
  · rw [getB_nil_of_ge _ j (by simp [appendBlock]; omega)]
    simp [countTerm]

/-- Running a body at a fresh block position and then branching to `k`
when not yet terminated: every block at or beyond the enclosing state's
frontier — including the body's entry block `b` — ends up terminated,
and older blocks other than `b` are untouched. -/
theorem guardedBody {w x : GenState} (b k : Nat) (hb : b < w.blocks.length)
    (hs : StmtStep (positionAt w b) x) :
    w.blocks.length ≤ (guardBr x k).blocks.length ∧
    (∀ j, j < w.blocks.length → j ≠ b → getB (guardBr x k) j = getB w j) ∧
    hasTerm (getB (guardBr x k) b) = true ∧
    (∀ j, w.blocks.length ≤ j → j < (guardBr x k).blocks.length →
      hasTerm (getB (guardBr x k) j) = true) ∧
    (oneMax w → oneMax (guardBr x k)) ∧
    (guardBr x k).blocks.length = x.blocks.length := by
  have hlen : w.blocks.length ≤ x.blocks.length := hs.len
  have hcases : x.cur = b ∨ w.blocks.length ≤ x.cur := hs.curmv
  refine ⟨?_, ?_, ?_, ?_, ?_, guardBr_len x k⟩
  · rw [guardBr_len]; exact hlen
  · intro j hj hne
    have hnx : j ≠ x.cur := by
      cases hcases with
      | inl hc => rw [hc]; exact hne
      | inr hc => omega
    rw [guardBr_getB_ne x k j hnx]
    exact hs.frame j hj hne
  · cases hcases with
    | inl hc =>
        have := guardBr_term x k hs.curlt
        rw [hc] at this
        exact this
    | inr hc =>
        have hnx : (b : Nat) ≠ x.cur := by omega
        rw [guardBr_getB_ne x k b hnx]
        exact hs.oldtm (by show x.cur ≠ b; omega)
  · intro j hj₁ hj₂
    rw [guardBr_len] at hj₂
    by_cases hx : j = x.cur
    · have := guardBr_term x k hs.curlt
      rw [hx]
      exact this
    · rw [guardBr_getB_ne x k j hx]
      exact hs.newtm j hj₁ hj₂ hx
  · intro hm
    exact guardBr_onemax k (hs.onemax (oneMax_positionAt b hm))

/-- Running a body (or the condition evaluation) at a fresh block position
and then emitting a terminator unconditionally: same conclusion as for
the guarded branch. -/
theorem terminatedBody {w x x' : GenState} (b : Nat) {i : Instr}
    (hterm : i.isTerminator = true) (hb : b < w.blocks.length)
    (hs : StmtStep (positionAt w b) x) (he : emitTerm x i = .ok x') :
    w.blocks.length ≤ x'.blocks.length ∧
    (∀ j, j < w.blocks.length → j ≠ b → getB x' j = getB w j) ∧
    hasTerm (getB x' b) = true ∧
    (∀ j, w.blocks.length ≤ j → j < x'.blocks.length → hasTerm (getB x' j) = true) ∧
    (oneMax w → oneMax x') ∧ x'.cur = x.cur ∧ x'.blocks.length = x.blocks.length := by
  obtain ⟨hno, hrw⟩ := emitTerm_ok he
  have hlen : w.blocks.length ≤ x.blocks.length := hs.len
  have hcases : x.cur = b ∨ w.blocks.length ≤ x.cur := hs.curmv
  have hxlen : x'.blocks.length = x.blocks.length := by rw [hrw, emit_len]
  refine ⟨by omega, ?_, ?_, ?_, ?_, by rw [hrw, emit_cur], hxlen⟩
  · intro j hj hne
    have hnx : j ≠ x.cur := by
      cases hcases with
      | inl hc => rw [hc]; exact hne
      | inr hc => omega
    rw [hrw, getB_emit_ne x i j hnx]
    exact hs.frame j hj hne
  · cases hcases with
    | inl hc =>
        have := emitTerm_hasTerm hterm (hc ▸ hs.curlt) he
        rw [hc] at this
        exact this
    | inr hc =>
        have hnx : (b : Nat) ≠ x.cur := by omega
        rw [hrw, getB_emit_ne x i b hnx]
        exact hs.oldtm (by show x.cur ≠ b; omega)
  · intro j hj₁ hj₂
    rw [hxlen] at hj₂
    by_cases hx : j = x.cur
    · have := emitTerm_hasTerm hterm hs.curlt he
      rw [hx]
      exact this
    · rw [hrw, getB_emit_ne x i j hx]
      exact hs.newtm j hj₁ hj₂ hx
  · intro hm
    exact emitTerm_onemax he (hs.onemax (oneMax_positionAt b hm))

theorem appendBlock_len (s : GenState) :
    (appendBlock s).2.blocks.length = s.blocks.length + 1 := by
  simp [appendBlock]

theorem appendIdx1 (s : GenState) : (appendBlock s).1 = s.blocks.length := rfl

theorem appendIdx2 (s : GenState) :
    (appendBlock (appendBlock s).2).1 = s.blocks.length + 1 := appendBlock_len s

theorem appendIdx3 (s : GenState) :
    (appendBlock (appendBlock (appendBlock s).2).2).1 = s.blocks.length + 2 := by
  have h1 := appendBlock_len s
  have h2 := appendBlock_len (appendBlock s).2
  show (appendBlock (appendBlock s).2).2.blocks.length = s.blocks.length + 2
  omega

theorem appendIdx4 (s : GenState) :
    (appendBlock (appendBlock (appendBlock (appendBlock s).2).2).2).1
      = s.blocks.length + 3 := by
  have h1 := appendBlock_len s
  have h2 := appendBlock_len (appendBlock s).2
  have h3 := appendBlock_len (appendBlock (appendBlock s).2).2
  show (appendBlock (appendBlock (appendBlock s).2).2).2.blocks.length
    = s.blocks.length + 3
  omega

theorem append3_len (s : GenState) :
    (appendBlock (appendBlock (appendBlock s).2).2).2.blocks.length
      = s.blocks.length + 3 := by
  have h1 := appendBlock_len s
  have h2 := appendBlock_len (appendBlock s).2
  have h3 := appendBlock_len (appendBlock (appendBlock s).2).2
  omega

theorem append4_len (s : GenState) :
    (appendBlock (appendBlock (appendBlock (appendBlock s).2).2).2).2.blocks.length
      = s.blocks.length + 4 := by
  have h1 := appendBlock_len s
  have h2 := appendBlock_len (appendBlock s).2
  have h3 := appendBlock_len (appendBlock (appendBlock s).2).2
  have h4 := appendBlock_len (appendBlock (appendBlock (appendBlock s).2).2).2
  omega

theorem append3_cur (s : GenState) :
    (appendBlock (appendBlock (appendBlock s).2).2).2.cur = s.cur := rfl

theorem append4_cur (s : GenState) :
    (appendBlock (appendBlock (appendBlock (appendBlock s).2).2).2).2.cur = s.cur := rfl

theorem append3_getB (s : GenState) (j : Nat) (h : j < s.blocks.length) :
    getB (appendBlock (appendBlock (appendBlock s).2).2).2 j = getB s j := by
  have h1 := appendBlock_len s
  have h2 := appendBlock_len (appendBlock s).2
  rw [getB_appendBlock_lt (appendBlock (appendBlock s).2).2 j (by omega),
    getB_appendBlock_lt (appendBlock s).2 j (by omega),
    getB_appendBlock_lt s j h]

theorem append4_getB (s : GenState) (j : Nat) (h : j < s.blocks.length) :
    getB (appendBlock (appendBlock (appendBlock (appendBlock s).2).2).2).2 j
      = getB s j := by
  have h1 := appendBlock_len s
  have h2 := appendBlock_len (appendBlock s).2
  have h3 := appendBlock_len (appendBlock (appendBlock s).2).2
  rw [getB_appendBlock_lt (appendBlock (appendBlock (appendBlock s).2).2).2 j (by omega),
    getB_appendBlock_lt (appendBlock (appendBlock s).2).2 j (by omega),
    getB_appendBlock_lt (appendBlock s).2 j (by omega),
    getB_appendBlock_lt s j h]

theorem append3_onemax {s : GenState} (hm : oneMax s) :
    oneMax (appendBlock (appendBlock (appendBlock s).2).2).2 :=
  oneMax_appendBlock (oneMax_appendBlock (oneMax_appendBlock hm))

theorem append4_onemax {s : GenState} (hm : oneMax s) :
    oneMax (appendBlock (appendBlock (appendBlock (appendBlock s).2).2).2).2 :=
  oneMax_appendBlock (append3_onemax hm)

/-- Tail of `generate_if_statement` with an else branch, starting after
the condition value is computed: three fresh blocks, the conditional
branch, both branch bodies each followed by a guarded branch to `merge`,
and the final positioning at `merge`. -/
theorem ifTail (t es : List Stmt) (cv : LValue) (s₁ s₅ s₆ s₈ s' : GenState)
    (T E M : Nat) (A4 : GenState)
    (hT : T = s₁.blocks.length) (hE : E = s₁.blocks.length + 1)
    (hM : M = s₁.blocks.length + 2)
    (hA4b : A4.blocks.length = s₁.blocks.length + 3)
    (hA4c : A4.cur = s₁.cur)
    (hA4g : ∀ j, j < s₁.blocks.length → getB A4 j = getB s₁ j)
    (hA4m : oneMax s₁ → oneMax A4)
    (hcur₁ : s₁.cur < s₁.blocks.length)
    (h₂ : emitTerm A4 (.cbr cv T E) = .ok s₅)
    (h₃ : genStmtList (positionAt s₅ T) t = .ok s₆)
    (h₄ : genStmtList (positionAt (guardBr s₆ M) E) es = .ok s₈)
    (hs' : s' = positionAt (guardBr s₈ M) M)
    (HT : ∀ (w x : GenState), w.cur < w.blocks.length →
        genStmtList w t = .ok x → StmtStep w x)
    (HE : ∀ (w x : GenState), w.cur < w.blocks.length →
        genStmtList w es = .ok x → StmtStep w x) :
    StmtStep s₁ s' := by
  subst hs'
  obtain ⟨hno₄, hs₅rw⟩ := emitTerm_ok h₂
  have hlen₅ : s₅.blocks.length = s₁.blocks.length + 3 := by
    rw [hs₅rw, emit_len, hA4b]
  have hcur₅ : s₅.cur = s₁.cur := by rw [hs₅rw, emit_cur, hA4c]
  have hget₅ : ∀ j, j < s₁.blocks.length → j ≠ s₁.cur → getB s₅ j = getB s₁ j := by
    intro j hj hne
    rw [hs₅rw, getB_emit_ne A4 _ j (by rw [hA4c]; exact hne), hA4g j hj]
  have happ₅ : getB s₅ s₁.cur = getB s₁ s₁.cur ++ [Instr.cbr cv T E] := by
    have hsc : s₁.cur = A4.cur := hA4c.symm
    rw [hs₅rw, hsc, getB_emit_self A4 _ (by rw [hA4c, hA4b]; omega), ← hsc,
      hA4g s₁.cur hcur₁]
  have hsl₁ : StmtStep (positionAt s₅ T) s₆ :=
    HT _ _ (by show T < s₅.blocks.length; omega) h₃
  have hbT : T < s₅.blocks.length := by omega
  obtain ⟨hB1len, hB1fr, hB1tm, hB1new, hB1one, hB1eq⟩ := guardedBody T M hbT hsl₁
  have hsl₂ : StmtStep (positionAt (guardBr s₆ M) E) s₈ :=
    HE _ _ (by show E < (guardBr s₆ M).blocks.length; omega) h₄
  have hbE : E < (guardBr s₆ M).blocks.length := by omega
  obtain ⟨hB2len, hB2fr, hB2tm, hB2new, hB2one, hB2eq⟩ := guardedBody E M hbE hsl₂
  refine ⟨?_, ?_, ?_, ?_, ?_, ?_, ?_, ?_⟩
  · show s₁.blocks.length ≤ (guardBr s₈ M).blocks.length
    omega
  · show M < (guardBr s₈ M).blocks.length
    omega
  · intro j hj hne
    show getB (guardBr s₈ M) j = getB s₁ j
    rw [hB2fr j (by omega) (by omega), hB1fr j (by omega) (by omega), hget₅ j hj hne]
  · refine ⟨[Instr.cbr cv T E], ?_⟩
    show getB (guardBr s₈ M) s₁.cur = getB s₁ s₁.cur ++ [Instr.cbr cv T E]
    rw [hB2fr s₁.cur (by omega) (by omega), hB1fr s₁.cur (by omega) (by omega), happ₅]
  · exact Or.inr (by show s₁.blocks.length ≤ M; omega)
  · intro j hj₁ hj₂ hj₃
    have hj₂' : j < (guardBr s₈ M).blocks.length := hj₂
    have hj₃' : j ≠ M := hj₃
    show hasTerm (getB (guardBr s₈ M) j) = true
    by_cases hjT : j = T
    · rw [hjT, hB2fr T (by omega) (by omega)]
      exact hB1tm
    · by_cases hjE : j = E
      · rw [hjE]
        exact hB2tm
      · by_cases hjG : j < (guardBr s₆ M).blocks.length
        · rw [hB2fr j hjG hjE]
          exact hB1new j (by omega) hjG
        · exact hB2new j (by omega) hj₂'
  · intro _
    show hasTerm (getB (guardBr s₈ M) s₁.cur) = true
    rw [hB2fr s₁.cur (by omega) (by omega), hB1fr s₁.cur (by omega) (by omega), happ₅,
      hasTerm_append]
    simp [hasTerm, Instr.isTerminator]
  · intro hm
    exact oneMax_positionAt M (hB2one (hB1one (emitTerm_onemax h₂ (hA4m hm))))

/-- Tail of `generate_if_statement` without an else branch: the else
block receives only the guarded branch to `merge`. -/
theorem ifTailNone (t : List Stmt) (cv : LValue) (s₁ s₅ s₆ s' : GenState)
    (T E M : Nat) (A4 : GenState)
    (hT : T = s₁.blocks.length) (hE : E = s₁.blocks.length + 1)
    (hM : M = s₁.blocks.length + 2)
    (hA4b : A4.blocks.length = s₁.blocks.length + 3)
    (hA4c : A4.cur = s₁.cur)
    (hA4g : ∀ j, j < s₁.blocks.length → getB A4 j = getB s₁ j)
    (hA4m : oneMax s₁ → oneMax A4)
    (hcur₁ : s₁.cur < s₁.blocks.length)
    (h₂ : emitTerm A4 (.cbr cv T E) = .ok s₅)
    (h₃ : genStmtList (positionAt s₅ T) t = .ok s₆)
    (hs' : s' = positionAt (guardBr (positionAt (guardBr s₆ M) E) M) M)
    (HT : ∀ (w x : GenState), w.cur < w.blocks.length →
        genStmtList w t = .ok x → StmtStep w x) :
    StmtStep s₁ s' := by
  subst hs'
  obtain ⟨hno₄, hs₅rw⟩ := emitTerm_ok h₂
  have hlen₅ : s₅.blocks.length = s₁.blocks.length + 3 := by
    rw [hs₅rw, emit_len, hA4b]
  have hcur₅ : s₅.cur = s₁.cur := by rw [hs₅rw, emit_cur, hA4c]
  have hget₅ : ∀ j, j < s₁.blocks.length → j ≠ s₁.cur → getB s₅ j = getB s₁ j := by
    intro j hj hne
    rw [hs₅rw, getB_emit_ne A4 _ j (by rw [hA4c]; exact hne), hA4g j hj]
  have happ₅ : getB s₅ s₁.cur = getB s₁ s₁.cur ++ [Instr.cbr cv T E] := by
    have hsc : s₁.cur = A4.cur := hA4c.symm
    rw [hs₅rw, hsc, getB_emit_self A4 _ (by rw [hA4c, hA4b]; omega), ← hsc,
      hA4g s₁.cur hcur₁]
  have hsl₁ : StmtStep (positionAt s₅ T) s₆ :=
    HT _ _ (by show T < s₅.blocks.length; omega) h₃
  have hbT : T < s₅.blocks.length := by omega
  obtain ⟨hB1len, hB1fr, hB1tm, hB1new, hB1one, hB1eq⟩ := guardedBody T M hbT hsl₁
  have hbE : E < (guardBr s₆ M).blocks.length := by omega
  have hsl₂ : StmtStep (positionAt (guardBr s₆ M) E) (positionAt (guardBr s₆ M) E) :=
    stmtStep_refl (by show E < (guardBr s₆ M).blocks.length; omega)
  obtain ⟨hB2len, hB2fr, hB2tm, hB2new, hB2one, hB2eq⟩ := guardedBody E M hbE hsl₂
  refine ⟨?_, ?_, ?_, ?_, ?_, ?_, ?_, ?_⟩
  · show s₁.blocks.length ≤ (guardBr (positionAt (guardBr s₆ M) E) M).blocks.length
    omega
  · show M < (guardBr (positionAt (guardBr s₆ M) E) M).blocks.length
    omega
  · intro j hj hne
    show getB (guardBr (positionAt (guardBr s₆ M) E) M) j = getB s₁ j
    rw [hB2fr j (by omega) (by omega), hB1fr j (by omega) (by omega), hget₅ j hj hne]
  · refine ⟨[Instr.cbr cv T E], ?_⟩
    show getB (guardBr (positionAt (guardBr s₆ M) E) M) s₁.cur
      = getB s₁ s₁.cur ++ [Instr.cbr cv T E]
    rw [hB2fr s₁.cur (by omega) (by omega), hB1fr s₁.cur (by omega) (by omega), happ₅]
  · exact Or.inr (by show s₁.blocks.length ≤ M; omega)
  · intro j hj₁ hj₂ hj₃
    have hj₂' : j < (guardBr (positionAt (guardBr s₆ M) E) M).blocks.length := hj₂
    have hj₃' : j ≠ M := hj₃
    show hasTerm (getB (guardBr (positionAt (guardBr s₆ M) E) M) j) = true
    by_cases hjT : j = T
    · rw [hjT, hB2fr T (by omega) (by omega)]
      exact hB1tm
    · by_cases hjE : j = E
      · rw [hjE]
        exact hB2tm
      · by_cases hjG : j < (guardBr s₆ M).blocks.length
        · rw [hB2fr j hjG hjE]
          exact hB1new j (by omega) hjG
        · exact hB2new j (by omega) hj₂'
  · intro _
    show hasTerm (getB (guardBr (positionAt (guardBr s₆ M) E) M) s₁.cur) = true
    rw [hB2fr s₁.cur (by omega) (by omega), hB1fr s₁.cur (by omega) (by omega), happ₅,
      hasTerm_append]
    simp [hasTerm, Instr.isTerminator]
  · intro hm
    exact oneMax_positionAt M (hB2one (hB1one (emitTerm_onemax h₂ (hA4m hm))))

/-- Tail of `generate_while_loop`: three fresh blocks, the branch into
the condition block, the condition evaluation ending in its conditional
branch, the body followed by a guarded back-branch to `cond`, and the
final positioning at `end`. -/
theorem whileTail (bdy : List Stmt) (i : Instr) (s s₄ s₆ s₇ s₈ s' : GenState)
    (T B En : Nat) (A4 : GenState)
    (hterm : i.isTerminator = true)
    (hT : T = s.blocks.length) (hB : B = s.blocks.length + 1)
    (hEn : En = s.blocks.length + 2)
    (hA4b : A4.blocks.length = s.blocks.length + 3)
    (hA4c : A4.cur = s.cur)
    (hA4g : ∀ j, j < s.blocks.length → getB A4 j = getB s j)
    (hA4m : oneMax s → oneMax A4)
    (hcur : s.cur < s.blocks.length)
    (h₂ : emitTerm A4 (.br T) = .ok s₄)
    (E : ExprStep (positionAt s₄ T) s₆)
    (h₄ : emitTerm s₆ i = .ok s₇)
    (h₅ : genStmtList (positionAt s₇ B) bdy = .ok s₈)
    (hs' : s' = positionAt (guardBr s₈ T) En)
    (HB : ∀ (w x : GenState), w.cur < w.blocks.length →
        genStmtList w bdy = .ok x → StmtStep w x) :
    StmtStep s s' := by
  subst hs'
  obtain ⟨hno₂, hs₄rw⟩ := emitTerm_ok h₂
  have hlen₄ : s₄.blocks.length = s.blocks.length + 3 := by
    rw [hs₄rw, emit_len, hA4b]
  have hcur₄ : s₄.cur = s.cur := by rw [hs₄rw, emit_cur, hA4c]
  have hget₄ : ∀ j, j < s.blocks.length → j ≠ s.cur → getB s₄ j = getB s j := by
    intro j hj hne
    rw [hs₄rw, getB_emit_ne A4 _ j (by rw [hA4c]; exact hne), hA4g j hj]
  have happ₄ : getB s₄ s.cur = getB s s.cur ++ [Instr.br T] := by
    have hsc : s.cur = A4.cur := hA4c.symm
    rw [hs₄rw, hsc, getB_emit_self A4 _ (by rw [hA4c, hA4b]; omega), ← hsc,
      hA4g s.cur hcur]
  have hbT : T < s₄.blocks.length := by omega
  have hsl₁ : StmtStep (positionAt s₄ T) s₆ :=
    stmtStep_of_exprStep (by show T < s₄.blocks.length; omega) E
  obtain ⟨hC1len, hC1fr, hC1tm, hC1new, hC1one, hC1cur, hC1eq⟩ :=
    terminatedBody T hterm hbT hsl₁ h₄
  have hlen₆ : s₆.blocks.length = s₄.blocks.length := E.len
  have hlen₇ : s₇.blocks.length = s.blocks.length + 3 := by omega
  have hbB : B < s₇.blocks.length := by omega
  have hsl₂ : StmtStep (positionAt s₇ B) s₈ :=
    HB _ _ (by show B < s₇.blocks.length; omega) h₅
  obtain ⟨hB1len, hB1fr, hB1tm, hB1new, hB1one, hB1eq⟩ := guardedBody B T hbB hsl₂
  refine ⟨?_, ?_, ?_, ?_, ?_, ?_, ?_, ?_⟩
  · show s.blocks.length ≤ (guardBr s₈ T).blocks.length
    omega
  · show En < (guardBr s₈ T).blocks.length
    omega
  · intro j hj hne
    show getB (guardBr s₈ T) j = getB s j
    rw [hB1fr j (by omega) (by omega), hC1fr j (by omega) (by omega), hget₄ j hj hne]
  · refine ⟨[Instr.br T], ?_⟩
    show getB (guardBr s₈ T) s.cur = getB s s.cur ++ [Instr.br T]
    rw [hB1fr s.cur (by omega) (by omega), hC1fr s.cur (by omega) (by omega), happ₄]
  · exact Or.inr (by show s.blocks.length ≤ En; omega)
  · intro j hj₁ hj₂ hj₃
    have hj₂' : j < (guardBr s₈ T).blocks.length := hj₂
    have hj₃' : j ≠ En := hj₃
    show hasTerm (getB (guardBr s₈ T) j) = true
    by_cases hjT : j = T
    · rw [hjT, hB1fr T (by omega) (by omega)]
      exact hC1tm
    · by_cases hjB : j = B
      · rw [hjB]
        exact hB1tm
      · by_cases hjG : j < s₇.blocks.length
        · omega
        · exact hB1new j (by omega) hj₂'
  · intro _
    show hasTerm (getB (guardBr s₈ T) s.cur) = true
    rw [hB1fr s.cur (by omega) (by omega), hC1fr s.cur (by omega) (by omega), happ₄,
      hasTerm_append]
    simp [hasTerm, Instr.isTerminator]
  · intro hm
    exact oneMax_positionAt En (hB1one (hC1one (emitTerm_onemax h₂ (hA4m hm))))

/-- Tail of `generate_for_loop` after the init statement: four fresh
blocks, the branch into the condition block, the raw conditional branch
on the condition value, the body with its guarded branch to `update`,
the update statement with its unconditional back-branch to `cond`, and
the final positioning at `end`. -/
theorem forTail (bdy : List Stmt) (u : Stmt) (i : Instr)
    (s₁ s₆ s₇ s₈ s₉ s₁₁ s₁₂ s' : GenState)
    (T B U En : Nat) (A5 : GenState)
    (hterm : i.isTerminator = true)
    (hT : T = s₁.blocks.length) (hB : B = s₁.blocks.length + 1)
    (hU : U = s₁.blocks.length + 2) (hEn : En = s₁.blocks.length + 3)
    (hA5b : A5.blocks.length = s₁.blocks.length + 4)
    (hA5c : A5.cur = s₁.cur)
    (hA5g : ∀ j, j < s₁.blocks.length → getB A5 j = getB s₁ j)
    (hA5m : oneMax s₁ → oneMax A5)
    (hcur₁ : s₁.cur < s₁.blocks.length)
    (h₂ : emitTerm A5 (.br T) = .ok s₆)
    (E : ExprStep (positionAt s₆ T) s₇)
    (h₄ : emitTerm s₇ i = .ok s₈)
    (h₅ : genStmtList (positionAt s₈ B) bdy = .ok s₉)
    (h₆ : genStmt (positionAt (guardBr s₉ U) U) u = .ok s₁₁)
    (h₇ : emitTerm s₁₁ (.br T) = .ok s₁₂)
    (hs' : s' = positionAt s₁₂ En)
    (HB : ∀ (w x : GenState), w.cur < w.blocks.length →
        genStmtList w bdy = .ok x → StmtStep w x)
    (HU : ∀ (w x : GenState), w.cur < w.blocks.length →
        genStmt w u = .ok x → StmtStep w x) :
    StmtStep s₁ s' := by
  subst hs'
  obtain ⟨hno₂, hs₆rw⟩ := emitTerm_ok h₂
  have hlen₆ : s₆.blocks.length = s₁.blocks.length + 4 := by
    rw [hs₆rw, emit_len, hA5b]
  have hcur₆ : s₆.cur = s₁.cur := by rw [hs₆rw, emit_cur, hA5c]
  have hget₆ : ∀ j, j < s₁.blocks.length → j ≠ s₁.cur → getB s₆ j = getB s₁ j := by
    intro j hj hne
    rw [hs₆rw, getB_emit_ne A5 _ j (by rw [hA5c]; exact hne), hA5g j hj]
  have happ₆ : getB s₆ s₁.cur = getB s₁ s₁.cur ++ [Instr.br T] := by
    have hsc : s₁.cur = A5.cur := hA5c.symm
    rw [hs₆rw, hsc, getB_emit_self A5 _ (by rw [hA5c, hA5b]; omega), ← hsc,
      hA5g s₁.cur hcur₁]
  have hbT : T < s₆.blocks.length := by omega
  have hsl₁ : StmtStep (positionAt s₆ T) s₇ :=
    stmtStep_of_exprStep (by show T < s₆.blocks.length; omega) E
  obtain ⟨hC1len, hC1fr, hC1tm, hC1new, hC1one, hC1cur, hC1eq⟩ :=
    terminatedBody T hterm hbT hsl₁ h₄
  have hlen₇ : s₇.blocks.length = s₆.blocks.length := E.len
  have hlen₈ : s₈.blocks.length = s₁.blocks.length + 4 := by omega
  have hbB : B < s₈.blocks.length := by omega
  have hsl₂ : StmtStep (positionAt s₈ B) s₉ :=
    HB _ _ (by show B < s₈.blocks.length; omega) h₅
  obtain ⟨hB1len, hB1fr, hB1tm, hB1new, hB1one, hB1eq⟩ := guardedBody B U hbB hsl₂
  have hbU : U < (guardBr s₉ U).blocks.length := by omega
  have hsl₃ : StmtStep (positionAt (guardBr s₉ U) U) s₁₁ :=
    HU _ _ (by show U < (guardBr s₉ U).blocks.length; omega) h₆
  obtain ⟨hUlen, hUfr, hUtm, hUnew, hUone, hUcur, hUeq⟩ :=
    terminatedBody U (show (Instr.br T).isTerminator = true from rfl) hbU hsl₃ h₇
  refine ⟨?_, ?_, ?_, ?_, ?_, ?_, ?_, ?_⟩
  · show s₁.blocks.length ≤ s₁₂.blocks.length
    omega
  · show En < s₁₂.blocks.length
    omega
  · intro j hj hne
    show getB s₁₂ j = getB s₁ j
    rw [hUfr j (by omega) (by omega), hB1fr j (by omega) (by omega),
      hC1fr j (by omega) (by omega), hget₆ j hj hne]
  · refine ⟨[Instr.br T], ?_⟩
    show getB s₁₂ s₁.cur = getB s₁ s₁.cur ++ [Instr.br T]
    rw [hUfr s₁.cur (by omega) (by omega), hB1fr s₁.cur (by omega) (by omega),
      hC1fr s₁.cur (by omega) (by omega), happ₆]
  · exact Or.inr (by show s₁.blocks.length ≤ En; omega)
  · intro j hj₁ hj₂ hj₃
    have hj₂' : j < s₁₂.blocks.length := hj₂
    have hj₃' : j ≠ En := hj₃
    show hasTerm (getB s₁₂ j) = true
    by_cases hjT : j = T
    · rw [hjT, hUfr T (by omega) (by omega), hB1fr T (by omega) (by omega)]
      exact hC1tm
    · by_cases hjB : j = B
      · rw [hjB, hUfr B (by omega) (by omega)]
        exact hB1tm
      · by_cases hjU : j = U
        · rw [hjU]
          exact hUtm
        · by_cases hjG : j < (guardBr s₉ U).blocks.length
          · rw [hUfr j hjG (by omega)]
            exact hB1new j (by omega) hjG
          · exact hUnew j (by omega) hj₂'
  · intro _
    show hasTerm (getB s₁₂ s₁.cur) = true
    rw [hUfr s₁.cur (by omega) (by omega), hB1fr s₁.cur (by omega) (by omega),
      hC1fr s₁.cur (by omega) (by omega), happ₆, hasTerm_append]
    simp [hasTerm, Instr.isTerminator]
  · intro hm
    exact oneMax_positionAt En (hUone (hB1one (hC1one (emitTerm_onemax h₂ (hA5m hm)))))

mutual

/-- Statement generation satisfies the statement-level emission spec. -/
theorem genStmt_step (st : Stmt) (s s' : GenState) (hcur : s.cur < s.blocks.length)
    (h : genStmt s st = .ok s') : StmtStep s s' := by
  cases st with
  | varDecl ty name ini =>
      simp only [genStmt] at h
      obtain ⟨lt, hty, h⟩ := bind_ok h
      cases ini with
      | none =>
          rw [← Except.ok.inj h]
          refine stmtStep_of_exprStep hcur ?_
          exact exprStep_trans (exprStep_emit s (.alloca lt name) (by rfl))
            (exprStep_same rfl rfl)
      | some e =>
          obtain ⟨p, h₁, h₂⟩ := bind_ok h
          obtain ⟨v, s₃⟩ := p
          rw [← Except.ok.inj h₂]
          refine stmtStep_of_exprStep hcur ?_
          refine exprStep_trans ?_ (exprStep_emit s₃ (.store v name) (by rfl))
          refine exprStep_trans ?_ (genExpr_step e _ v s₃ h₁)
          exact exprStep_trans (exprStep_emit s (.alloca lt name) (by rfl))
            (exprStep_same rfl rfl)
  | assign name value =>
      simp only [genStmt] at h
      obtain ⟨p, h₁, h₂⟩ := bind_ok h
      obtain ⟨v, s₁⟩ := p
      split at h₂
      · cases h₂
      · rw [← Except.ok.inj h₂]
        exact stmtStep_of_exprStep hcur
          (exprStep_trans (genExpr_step value s v s₁ h₁)
            (exprStep_emit s₁ (.store v name) (by rfl)))
  | sreturn value =>
      cases value with
      | some e =>
          simp only [genStmt] at h
          obtain ⟨p, h₁, h₂⟩ := bind_ok h
          obtain ⟨v, s₁⟩ := p
          exact stmtStep_expr_emitTerm hcur (genExpr_step e s v s₁ h₁) h₂
      | none =>
          simp only [genStmt] at h
          exact stmtStep_expr_emitTerm hcur (exprStep_id s) h
  | sprint es =>
      simp only [genStmt] at h
      exact stmtStep_of_exprStep hcur (genPrintStmt_step s es s' h)
  | sinput name =>
      simp only [genStmt] at h
      exact stmtStep_of_exprStep hcur (genInput_step s name s' h)
  | sexpr e =>
      simp only [genStmt] at h
      obtain ⟨p, h₁, h₂⟩ := bind_ok h
      obtain ⟨v, s₁⟩ := p
      rw [← Except.ok.inj h₂]
      exact stmtStep_of_exprStep hcur (genExpr_step e s v s₁ h₁)
  | sif c t e =>
      cases e with
      | some es =>
          simp only [genStmt] at h
          obtain ⟨p, h₁, h⟩ := bind_ok h
          obtain ⟨cv, s₁⟩ := p
          obtain ⟨s₅, h₂, h⟩ := bind_ok h
          obtain ⟨s₆, h₃, h⟩ := bind_ok h
          obtain ⟨s₈, h₄, h⟩ := bind_ok h
          have E1 := genExpr_step c s cv s₁ h₁
          have hcur₁ : s₁.cur < s₁.blocks.length := by rw [E1.len, E1.cur]; exact hcur
          exact stmtStep_trans hcur (stmtStep_of_exprStep hcur E1)
            (ifTail t es cv s₁ s₅ s₆ s₈ s'
              (appendBlock s₁).1 (appendBlock (appendBlock s₁).2).1
              (appendBlock (appendBlock (appendBlock s₁).2).2).1
              (appendBlock (appendBlock (appendBlock s₁).2).2).2
              (appendIdx1 s₁) (appendIdx2 s₁) (appendIdx3 s₁)
              (append3_len s₁) (append3_cur s₁) (append3_getB s₁)
              (fun hm => append3_onemax hm)
              hcur₁ h₂ h₃ h₄ ((Except.ok.inj h).symm)
              (fun w x hb hx => genStmtList_step t w x hb hx)
              (fun w x hb hx => genStmtList_step es w x hb hx))
      | none =>
          simp only [genStmt] at h
          obtain ⟨p, h₁, h⟩ := bind_ok h
          obtain ⟨cv, s₁⟩ := p
          obtain ⟨s₅, h₂, h⟩ := bind_ok h
          obtain ⟨s₆, h₃, h⟩ := bind_ok h
          have E1 := genExpr_step c s cv s₁ h₁
          have hcur₁ : s₁.cur < s₁.blocks.length := by rw [E1.len, E1.cur]; exact hcur
          exact stmtStep_trans hcur (stmtStep_of_exprStep hcur E1)
            (ifTailNone t cv s₁ s₅ s₆ s'
              (appendBlock s₁).1 (appendBlock (appendBlock s₁).2).1
              (appendBlock (appendBlock (appendBlock s₁).2).2).1
              (appendBlock (appendBlock (appendBlock s₁).2).2).2
              (appendIdx1 s₁) (appendIdx2 s₁) (appendIdx3 s₁)
              (append3_len s₁) (append3_cur s₁) (append3_getB s₁)
              (fun hm => append3_onemax hm)
              hcur₁ h₂ h₃ ((Except.ok.inj h).symm)
              (fun w x hb hx => genStmtList_step t w x hb hx))
  | swhile c b =>
      simp only [genStmt] at h
      obtain ⟨s₄, h₂, h⟩ := bind_ok h
      obtain ⟨p, h₃, h⟩ := bind_ok h
      obtain ⟨cv, s₅⟩ := p
      obtain ⟨s₇, h₄, h⟩ := bind_ok h
      obtain ⟨s₈, h₅, h⟩ := bind_ok h
      have E1 : ExprStep (positionAt s₄ (appendBlock s).1) s₅ :=
        genExpr_step c (positionAt s₄ (appendBlock s).1) cv s₅ h₃
      have E2 : ExprStep (positionAt s₄ (appendBlock s).1)
          (if cv.lty = LType.i32 then
            emitVal s₅ (.icmp "!=" cv (.cInt .i32 0)) .i1
          else (cv, s₅)).2 := by
        by_cases hty : cv.lty = LType.i32
        · rw [if_pos hty]
          exact exprStep_trans E1 (exprStep_emitVal_base s₅ _ _ (by rfl))
        · rw [if_neg hty]
          exact E1
      exact whileTail b _ s s₄ _ s₇ s₈ s'
        (appendBlock s).1 (appendBlock (appendBlock s).2).1
        (appendBlock (appendBlock (appendBlock s).2).2).1
        (appendBlock (appendBlock (appendBlock s).2).2).2
        (by rfl)
        (appendIdx1 s) (appendIdx2 s) (appendIdx3 s)
        (append3_len s) (append3_cur s) (append3_getB s)
        (fun hm => append3_onemax hm)
        hcur h₂ E2 h₄ h₅ ((Except.ok.inj h).symm)
        (fun w x hb hx => genStmtList_step b w x hb hx)
  | sfor ini c u b =>
      simp only [genStmt] at h
      obtain ⟨s₁, h₁, h⟩ := bind_ok h
      obtain ⟨s₆, h₂, h⟩ := bind_ok h
      obtain ⟨p, h₃, h⟩ := bind_ok h
      obtain ⟨cv, s₇⟩ := p
      obtain ⟨s₈, h₄, h⟩ := bind_ok h
      obtain ⟨s₉, h₅, h⟩ := bind_ok h
      obtain ⟨s₁₁, h₆, h⟩ := bind_ok h
      obtain ⟨s₁₂, h₇, h⟩ := bind_ok h
      have S0 := genStmt_step ini s s₁ hcur h₁
      have E1 : ExprStep (positionAt s₆ (appendBlock s₁).1) s₇ :=
        genExpr_step c (positionAt s₆ (appendBlock s₁).1) cv s₇ h₃
      exact stmtStep_trans hcur S0
        (forTail b u _ s₁ s₆ s₇ s₈ s₉ s₁₁ s₁₂ s'
          (appendBlock s₁).1 (appendBlock (appendBlock s₁).2).1
          (appendBlock (appendBlock (appendBlock s₁).2).2).1
          (appendBlock (appendBlock (appendBlock (appendBlock s₁).2).2).2).1
          (appendBlock (appendBlock (appendBlock (appendBlock s₁).2).2).2).2
          (by rfl)
          (appendIdx1 s₁) (appendIdx2 s₁) (appendIdx3 s₁) (appendIdx4 s₁)
          (append4_len s₁) (append4_cur s₁) (append4_getB s₁)
          (fun hm => append4_onemax hm)
          S0.curlt h₂ E1 h₄ h₅ h₆ h₇ ((Except.ok.inj h).symm)
          (fun w x hb hx => genStmtList_step b w x hb hx)
          (fun w x hb hx => genStmt_step u w x hb hx))

/-- Statement-list generation satisfies the statement-level emission
spec. -/
theorem genStmtList_step (l : List Stmt) (s s' : GenState) (hcur : s.cur < s.blocks.length)
    (h : genStmtList s l = .ok s') : StmtStep s s' := by
  cases l with
  | nil =>
      simp only [genStmtList] at h
      rw [← Except.ok.inj h]
      exact stmtStep_refl hcur
  | cons st rest =>
      simp only [genStmtList] at h
      obtain ⟨s₁, h₁, h₂⟩ := bind_ok h
      have S1 := genStmt_step st s s₁ hcur h₁
      exact stmtStep_trans hcur S1 (genStmtList_step rest s₁ s' S1.curlt h₂)

end

/-! ## Module function-list preservation through body generation -/

theorem emit_funcs (s : GenState) (i : Instr) :
    (emit s i).module.funcs = s.module.funcs := rfl

theorem emitVal_funcs (s : GenState) (i : Instr) (t : LType) :
    (emitVal s i t).2.module.funcs = s.module.funcs := rfl

theorem positionAt_funcs (s : GenState) (i : Nat) :
    (positionAt s i).module.funcs = s.module.funcs := rfl

theorem appendBlock_funcs (s : GenState) :
    (appendBlock s).2.module.funcs = s.module.funcs := rfl

theorem guardBr_funcs (s : GenState) (k : Nat) :
    (guardBr s k).module.funcs = s.module.funcs := by
  unfold guardBr
  split <;> rfl

theorem emitTerm_funcs {s : GenState} {i : Instr} {s' : GenState}
    (h : emitTerm s i = .ok s') : s'.module.funcs = s.module.funcs := by
  rw [(emitTerm_ok h).2]
  rfl

theorem getStringConstant_funcs (s : GenState) (str : String) :
    (getStringConstant s str).2.module.funcs = s.module.funcs := rfl

theorem concatStrings_funcs (s : GenState) (l r : LValue) :
    (concatStrings s l r).2.module.funcs = s.module.funcs := rfl

theorem compareStrings_funcs (s : GenState) (l r : LValue) :
    (compareStrings s l r).2.module.funcs = s.module.funcs := by
  unfold compareStrings
  dsimp only
  split <;> rfl

theorem genLiteral_funcs (s : GenState) (v : LitVal) :
    (genLiteral s v).2.module.funcs = s.module.funcs := by
  cases v <;> rfl

theorem ok_pair_funcs {X : LValue × GenState} {v : LValue} {s' s : GenState}
    (h : (Except.ok X : Except GenErr (LValue × GenState)) = .ok (v, s'))
    (hX : X.2.module.funcs = s.module.funcs) : s'.module.funcs = s.module.funcs := by
  have h2 : X.2 = s' := congrArg Prod.snd (Except.ok.inj h)
  rw [← h2]
  exact hX

theorem genBinOpConv_funcs {s : GenState} {conv : String} {l r v : LValue} {s' : GenState}
    (h : genBinOpConv s conv l r = .ok (v, s')) : s'.module.funcs = s.module.funcs := by
  unfold genBinOpConv at h
  split at h
  · split at h
    · exact ok_pair_funcs h (concatStrings_funcs s l r)
    · exact ok_pair_funcs h rfl
  · split at h
    · exact ok_pair_funcs h rfl
    · split at h
      · exact ok_pair_funcs h rfl
      · split at h
        · exact ok_pair_funcs h rfl
        · split at h
          · exact ok_pair_funcs h rfl
          · split at h
            · exact ok_pair_funcs h rfl
            · split at h
              · split at h
                · exact ok_pair_funcs h (compareStrings_funcs s l r)
                · exact ok_pair_funcs h rfl
              · cases h

mutual

theorem genExpr_funcs (e : Expr) (s : GenState) (v : LValue) (s' : GenState)
    (h : genExpr s e = .ok (v, s')) : s'.module.funcs = s.module.funcs := by
  cases e with
  | lit lv =>
      simp only [genExpr] at h
      exact ok_pair_funcs h (genLiteral_funcs s lv)
  | ident name =>
      simp only [genExpr] at h
      split at h
      · cases h
      · exact ok_pair_funcs h rfl
  | binop op l r =>
      simp only [genExpr] at h
      obtain ⟨p₁, h₁, h⟩ := bind_ok h
      obtain ⟨lv, s₁⟩ := p₁
      obtain ⟨p₂, h₂, h⟩ := bind_ok h
      obtain ⟨rv, s₂⟩ := p₂
      have h3 : s'.module.funcs = s₂.module.funcs := genBinOpConv_funcs h
      rw [h3, genExpr_funcs r s₁ rv s₂ h₂, genExpr_funcs l s lv s₁ h₁]
  | unop op x =>
      simp only [genExpr] at h
      cases h
  | call fname args =>
      simp only [genExpr] at h
      split at h
      · cases h
      · obtain ⟨p₁, h₁, h⟩ := bind_ok h
        obtain ⟨vs, s₁⟩ := p₁
        refine ok_pair_funcs h ?_
        rw [emitVal_funcs]
        exact genArgs_funcs args s vs s₁ h₁

theorem genArgs_funcs (l : List Expr) (s : GenState) (vs : List LValue) (s' : GenState)
    (h : genArgs s l = .ok (vs, s')) : s'.module.funcs = s.module.funcs := by
  cases l with
  | nil =>
      simp only [genArgs] at h
      have h2 : s = s' := congrArg Prod.snd (Except.ok.inj h)
      rw [← h2]
  | cons e es =>
      simp only [genArgs] at h
      obtain ⟨p₁, h₁, h⟩ := bind_ok h
      obtain ⟨w, s₁⟩ := p₁
      obtain ⟨p₂, h₂, h⟩ := bind_ok h
      obtain ⟨ws, s₂⟩ := p₂
      have h3 : s₂ = s' := congrArg Prod.snd (Except.ok.inj h)
      rw [← h3]
      rw [genArgs_funcs es s₁ ws s₂ h₂, genExpr_funcs e s w s₁ h₁]

end

theorem printValue_funcs (s : GenState) (v : LValue) :
    (printValue s v).module.funcs = s.module.funcs := by
  unfold printValue
  split
  · rfl
  · split
    · rfl
    · split
      · rfl
      · split
        · rfl
        · rfl

theorem genPrintExprs_funcs (es : List Expr) (s s' : GenState)
    (h : genPrintExprs s es = .ok s') : s'.module.funcs = s.module.funcs := by
  induction es generalizing s with
  | nil =>
      simp only [genPrintExprs] at h
      rw [← Except.ok.inj h]
  | cons e es ih =>
      cases e with
      | lit lv =>
          cases lv with
          | vStr str =>
              simp only [genPrintExprs] at h
              rw [ih _ h]
              rfl
          | vInt n =>
              simp only [genPrintExprs] at h
              obtain ⟨p, h₁, h₂⟩ := bind_ok h
              obtain ⟨w, s₁⟩ := p
              rw [ih _ h₂, printValue_funcs, genExpr_funcs _ s w s₁ h₁]
          | vFloat n =>
              simp only [genPrintExprs] at h
              obtain ⟨p, h₁, h₂⟩ := bind_ok h
              obtain ⟨w, s₁⟩ := p
              rw [ih _ h₂, printValue_funcs, genExpr_funcs _ s w s₁ h₁]
          | vBool b =>
              simp only [genPrintExprs] at h
              obtain ⟨p, h₁, h₂⟩ := bind_ok h
              obtain ⟨w, s₁⟩ := p
              rw [ih _ h₂, printValue_funcs, genExpr_funcs _ s w s₁ h₁]
      | ident name =>
          simp only [genPrintExprs] at h
          obtain ⟨p, h₁, h₂⟩ := bind_ok h
          obtain ⟨w, s₁⟩ := p
          rw [ih _ h₂, printValue_funcs, genExpr_funcs _ s w s₁ h₁]
      | binop o l r =>
          simp only [genPrintExprs] at h
          obtain ⟨p, h₁, h₂⟩ := bind_ok h
          obtain ⟨w, s₁⟩ := p
          rw [ih _ h₂, printValue_funcs, genExpr_funcs _ s w s₁ h₁]
      | unop o x =>
          simp only [genPrintExprs] at h
          obtain ⟨p, h₁, h₂⟩ := bind_ok h
          obtain ⟨w, s₁⟩ := p
          rw [ih _ h₂, printValue_funcs, genExpr_funcs _ s w s₁ h₁]
      | call fn args =>
          simp only [genPrintExprs] at h
          obtain ⟨p, h₁, h₂⟩ := bind_ok h
          obtain ⟨w, s₁⟩ := p
          rw [ih _ h₂, printValue_funcs, genExpr_funcs _ s w s₁ h₁]

theorem genPrintStmt_funcs {s : GenState} {es : List Expr} {s' : GenState}
    (h : genPrintStmt s es = .ok s') : s'.module.funcs = s.module.funcs := by
  simp only [genPrintStmt] at h
  obtain ⟨s₁, h₁, h₂⟩ := bind_ok h
  rw [← Except.ok.inj h₂]
  try dsimp only
  rw [emitVal_funcs, getStringConstant_funcs]
  exact genPrintExprs_funcs es s s₁ h₁

theorem genInput_funcs {s : GenState} {name : String} {s' : GenState}
    (h : genInput s name = .ok s') : s'.module.funcs = s.module.funcs := by
  unfold genInput at h
  split at h
  · cases h
  · split at h
    · rw [← Except.ok.inj h]
      rfl
    · split at h
      · rw [← Except.ok.inj h]
        rfl
      · split at h
        · rw [← Except.ok.inj h]
          rfl
        · rw [← Except.ok.inj h]
          rfl

theorem genParamAllocas_funcs (ps : List (Param × LType)) (i : Nat) (s : GenState) :
    (genParamAllocas s ps i).module.funcs = s.module.funcs := by
  induction ps generalizing i s with
  | nil => rfl
  | cons pt rest ih =>
      obtain ⟨p, t⟩ := pt
      simp only [genParamAllocas]
      rw [ih]
      rfl

mutual

theorem genStmt_funcs (st : Stmt) (s s' : GenState)
    (h : genStmt s st = .ok s') : s'.module.funcs = s.module.funcs := by
  cases st with
  | varDecl ty name ini =>
      simp only [genStmt] at h
      obtain ⟨lt, hty, h⟩ := bind_ok h
      cases ini with
      | none =>
          rw [← Except.ok.inj h]
          rfl
      | some e =>
          obtain ⟨p, h₁, h₂⟩ := bind_ok h
          obtain ⟨w, s₃⟩ := p
          rw [← Except.ok.inj h₂, emit_funcs, genExpr_funcs e _ w s₃ h₁]
          rfl
  | assign name value =>
      simp only [genStmt] at h
      obtain ⟨p, h₁, h₂⟩ := bind_ok h
      obtain ⟨w, s₁⟩ := p
      split at h₂
      · cases h₂
      · rw [← Except.ok.inj h₂, emit_funcs, genExpr_funcs value s w s₁ h₁]
  | sreturn value =>
      cases value with
      | some e =>
          simp only [genStmt] at h
          obtain ⟨p, h₁, h₂⟩ := bind_ok h
          obtain ⟨w, s₁⟩ := p
          rw [emitTerm_funcs h₂, genExpr_funcs e s w s₁ h₁]
      | none =>
          simp only [genStmt] at h
          rw [emitTerm_funcs h]
  | sprint es =>
      simp only [genStmt] at h
      exact genPrintStmt_funcs h
  | sinput name =>
      simp only [genStmt] at h
      exact genInput_funcs h
  | sexpr e =>
      simp only [genStmt] at h
      obtain ⟨p, h₁, h₂⟩ := bind_ok h
      obtain ⟨w, s₁⟩ := p
      rw [← Except.ok.inj h₂]
      exact genExpr_funcs e s w s₁ h₁
  | sif c t e =>
      cases e with
      | some es =>
          simp only [genStmt] at h
          obtain ⟨p, h₁, h⟩ := bind_ok h
          obtain ⟨cv, s₁⟩ := p
          obtain ⟨s₅, h₂, h⟩ := bind_ok h
          obtain ⟨s₆, h₃, h⟩ := bind_ok h
          obtain ⟨s₈, h₄, h⟩ := bind_ok h
          rw [← Except.ok.inj h, positionAt_funcs, guardBr_funcs,
            genStmtList_funcs es _ s₈ h₄, positionAt_funcs, guardBr_funcs,
            genStmtList_funcs t _ s₆ h₃, positionAt_funcs, emitTerm_funcs h₂,
            appendBlock_funcs, appendBlock_funcs, appendBlock_funcs]
          exact genExpr_funcs c s cv s₁ h₁
      | none =>
          simp only [genStmt] at h
          obtain ⟨p, h₁, h⟩ := bind_ok h
          obtain ⟨cv, s₁⟩ := p
          obtain ⟨s₅, h₂, h⟩ := bind_ok h
          obtain ⟨s₆, h₃, h⟩ := bind_ok h
          rw [← Except.ok.inj h, positionAt_funcs, guardBr_funcs, positionAt_funcs,
            guardBr_funcs, genStmtList_funcs t _ s₆ h₃, positionAt_funcs,
            emitTerm_funcs h₂, appendBlock_funcs, appendBlock_funcs, appendBlock_funcs]
          exact genExpr_funcs c s cv s₁ h₁
  | swhile c b =>
      simp only [genStmt] at h
      obtain ⟨s₄, h₂, h⟩ := bind_ok h
      obtain ⟨p, h₃, h⟩ := bind_ok h
      obtain ⟨cv, s₅⟩ := p
      obtain ⟨s₇, h₄, h⟩ := bind_ok h
      obtain ⟨s₈, h₅, h⟩ := bind_ok h
      have hs₅ : s₅.module.funcs = s.module.funcs := by
        rw [genExpr_funcs c _ cv s₅ h₃, positionAt_funcs, emitTerm_funcs h₂,
          appendBlock_funcs, appendBlock_funcs, appendBlock_funcs]
      rw [← Except.ok.inj h, positionAt_funcs, guardBr_funcs,
        genStmtList_funcs b _ s₈ h₅, positionAt_funcs, emitTerm_funcs h₄]
      split
      · rw [emitVal_funcs]
        exact hs₅
      · exact hs₅
  | sfor ini c u b =>
      simp only [genStmt] at h
      obtain ⟨s₁, h₁, h⟩ := bind_ok h
      obtain ⟨s₆, h₂, h⟩ := bind_ok h
      obtain ⟨p, h₃, h⟩ := bind_ok h
      obtain ⟨cv, s₇⟩ := p
      obtain ⟨s₈, h₄, h⟩ := bind_ok h
      obtain ⟨s₉, h₅, h⟩ := bind_ok h
      obtain ⟨s₁₁, h₆, h⟩ := bind_ok h
      obtain ⟨s₁₂, h₇, h⟩ := bind_ok h
      rw [← Except.ok.inj h, positionAt_funcs, emitTerm_funcs h₇,
        genStmt_funcs u _ s₁₁ h₆, positionAt_funcs, guardBr_funcs,
        genStmtList_funcs b _ s₉ h₅, positionAt_funcs, emitTerm_funcs h₄,
        genExpr_funcs c _ cv s₇ h₃, positionAt_funcs, emitTerm_funcs h₂,
        appendBlock_funcs, appendBlock_funcs, appendBlock_funcs, appendBlock_funcs]
      exact genStmt_funcs ini s s₁ h₁

theorem genStmtList_funcs (l : List Stmt) (s s' : GenState)
    (h : genStmtList s l = .ok s') : s'.module.funcs = s.module.funcs := by
  cases l with
  | nil =>
      simp only [genStmtList] at h
      rw [← Except.ok.inj h]
  | cons st rest =>
      simp only [genStmtList] at h
      obtain ⟨s₁, h₁, h₂⟩ := bind_ok h
      rw [genStmtList_funcs rest s₁ s' h₂, genStmt_funcs st s s₁ h₁]

end

/-! ## C1: every emitted basic block carries exactly one terminator -/

theorem genParamAllocas_step (ps : List (Param × LType)) (i : Nat) (s : GenState) :
    ExprStep s (genParamAllocas s ps i) := by
  induction ps generalizing i s with
  | nil => exact exprStep_id s
  | cons pt rest ih =>
      obtain ⟨p, t⟩ := pt
      simp only [genParamAllocas]
      exact exprStep_trans
        (exprStep_trans
          (exprStep_trans (exprStep_emit s (.alloca t p.name) (by rfl))
            (exprStep_emit (emit s (.alloca t p.name)) (.store (.argv t i) p.name) (by rfl)))
          (exprStep_same (by rfl) (by rfl)))
        (ih (i + 1) _)

/-- Appending non-terminators to an already terminated current block keeps
it terminated and in place. -/
theorem keep_of_exprStep {s s' : GenState} (E : ExprStep s s')
    (ht : hasTerm (getB s s.cur) = true) :
    s'.cur = s.cur ∧ hasTerm (getB s' s'.cur) = true := by
  obtain ⟨t, hap, hz⟩ := E.app
  refine ⟨E.cur, ?_⟩
  rw [E.cur, hap, hasTerm_append, ht]
  rfl

/-- An `emitTerm` cannot succeed once the (unchanged) current block is
terminated. -/
theorem keep_absurd {s s₁ : GenState} (E : ExprStep s s₁)
    (ht : hasTerm (getB s s.cur) = true)
    (hno : hasTerm (getB s₁ s₁.cur) = false) : False := by
  obtain ⟨t, hap, hz⟩ := E.app
  rw [E.cur, hap, hasTerm_append, ht] at hno
  simp at hno

mutual

/-- Once the current block is terminated, a successful statement cannot
move the builder or un-terminate the block (llvmlite's terminator assert
rejects every construct that would). -/
theorem genStmt_keepTerm (st : Stmt) (s s' : GenState)
    (hcur : s.cur < s.blocks.length) (ht : hasTerm (getB s s.cur) = true)
    (h : genStmt s st = .ok s') :
    s'.cur = s.cur ∧ hasTerm (getB s' s'.cur) = true := by
  cases st with
  | varDecl ty name ini =>
      simp only [genStmt] at h
      obtain ⟨lt, hty, h⟩ := bind_ok h
      cases ini with
      | none =>
          rw [← Except.ok.inj h]
          exact keep_of_exprStep
            (exprStep_trans (exprStep_emit s (.alloca lt name) (by rfl))
              (exprStep_same rfl rfl)) ht
      | some e =>
          obtain ⟨p, h₁, h₂⟩ := bind_ok h
          obtain ⟨v, s₃⟩ := p
          rw [← Except.ok.inj h₂]
          refine keep_of_exprStep ?_ ht
          refine exprStep_trans ?_ (exprStep_emit s₃ (.store v name) (by rfl))
          refine exprStep_trans ?_ (genExpr_step e _ v s₃ h₁)
          exact exprStep_trans (exprStep_emit s (.alloca lt name) (by rfl))
            (exprStep_same rfl rfl)
  | assign name value =>
      simp only [genStmt] at h
      obtain ⟨p, h₁, h₂⟩ := bind_ok h
      obtain ⟨v, s₁⟩ := p
      split at h₂
      · cases h₂
      · rw [← Except.ok.inj h₂]
        exact keep_of_exprStep
          (exprStep_trans (genExpr_step value s v s₁ h₁)
            (exprStep_emit s₁ (.store v name) (by rfl))) ht
  | sreturn value =>
      cases value with
      | some e =>
          simp only [genStmt] at h
          obtain ⟨p, h₁, h₂⟩ := bind_ok h
          obtain ⟨v, s₁⟩ := p
          exact (keep_absurd (genExpr_step e s v s₁ h₁) ht (emitTerm_ok h₂).1).elim
      | none =>
          simp only [genStmt] at h
          exact (keep_absurd (exprStep_id s) ht (emitTerm_ok h).1).elim
  | sprint es =>
      simp only [genStmt] at h
      exact keep_of_exprStep (genPrintStmt_step s es s' h) ht
  | sinput name =>
      simp only [genStmt] at h
      exact keep_of_exprStep (genInput_step s name s' h) ht
  | sexpr e =>
      simp only [genStmt] at h
      obtain ⟨p, h₁, h₂⟩ := bind_ok h
      obtain ⟨v, s₁⟩ := p
      rw [← Except.ok.inj h₂]
      exact keep_of_exprStep (genExpr_step e s v s₁ h₁) ht
  | sif c t e =>
      cases e with
      | some es =>
          simp only [genStmt] at h
          obtain ⟨p, h₁, h⟩ := bind_ok h
          obtain ⟨cv, s₁⟩ := p
          obtain ⟨s₅, h₂, h⟩ := bind_ok h
          have E1 := genExpr_step c s cv s₁ h₁
          have hcur₁ : s₁.cur < s₁.blocks.length := by rw [E1.len, E1.cur]; exact hcur
          have hno' : hasTerm
              (getB (appendBlock (appendBlock (appendBlock s₁).2).2).2 s₁.cur) = false :=
            (emitTerm_ok h₂).1
          rw [append3_getB s₁ s₁.cur hcur₁] at hno'
          exact (keep_absurd E1 ht hno').elim
      | none =>
          simp only [genStmt] at h
          obtain ⟨p, h₁, h⟩ := bind_ok h
          obtain ⟨cv, s₁⟩ := p
          obtain ⟨s₅, h₂, h⟩ := bind_ok h
          have E1 := genExpr_step c s cv s₁ h₁
          have hcur₁ : s₁.cur < s₁.blocks.length := by rw [E1.len, E1.cur]; exact hcur
          have hno' : hasTerm
              (getB (appendBlock (appendBlock (appendBlock s₁).2).2).2 s₁.cur) = false :=
            (emitTerm_ok h₂).1
          rw [append3_getB s₁ s₁.cur hcur₁] at hno'
          exact (keep_absurd E1 ht hno').elim
  | swhile c b =>
      simp only [genStmt] at h
      obtain ⟨s₄, h₂, h⟩ := bind_ok h
      have hno' : hasTerm
          (getB (appendBlock (appendBlock (appendBlock s).2).2).2 s.cur) = false :=
        (emitTerm_ok h₂).1
      rw [append3_getB s s.cur hcur] at hno'
      exact (keep_absurd (exprStep_id s) ht hno').elim
  | sfor ini c u b =>
      simp only [genStmt] at h
      obtain ⟨s₁, h₁, h⟩ := bind_ok h
      obtain ⟨s₆, h₂, h⟩ := bind_ok h
      obtain ⟨hc₁, ht₁⟩ := genStmt_keepTerm ini s s₁ hcur ht h₁
      have hcur₁ : s₁.cur < s₁.blocks.length := (genStmt_step ini s s₁ hcur h₁).curlt
      have hno' : hasTerm
          (getB (appendBlock (appendBlock (appendBlock (appendBlock s₁).2).2).2).2
            s₁.cur) = false :=
        (emitTerm_ok h₂).1
      rw [append4_getB s₁ s₁.cur hcur₁] at hno'
      exact (keep_absurd (exprStep_id s₁) ht₁ hno').elim

/-- List version of `genStmt_keepTerm`. -/
theorem genStmtList_keepTerm (l : List Stmt) (s s' : GenState)
    (hcur : s.cur < s.blocks.length) (ht : hasTerm (getB s s.cur) = true)
    (h : genStmtList s l = .ok s') :
    s'.cur = s.cur ∧ hasTerm (getB s' s'.cur) = true := by
  cases l with
  | nil =>
      have hs : s = s' := Except.ok.inj h
      subst hs
      exact ⟨rfl, ht⟩
  | cons st rest =>
      simp only [genStmtList] at h
      obtain ⟨s₁, h₁, h₂⟩ := bind_ok h
      obtain ⟨hc₁, ht₁⟩ := genStmt_keepTerm st s s₁ hcur ht h₁
      have hcur₁ : s₁.cur < s₁.blocks.length := (genStmt_step st s s₁ hcur h₁).curlt
      obtain ⟨hc₂, ht₂⟩ := genStmtList_keepTerm rest s₁ s' hcur₁ ht₁ h₂
      exact ⟨hc₂.trans hc₁, ht₂⟩

end

/-- If a statement list contains a top-level `ReturnStatement` and its
generation succeeds, the builder ends on a terminated block. -/
theorem genStmtList_retTerm (l : List Stmt) (s s' : GenState)
    (hcur : s.cur < s.blocks.length) (h : genStmtList s l = .ok s')
    (hany : l.any Stmt.isReturn = true) :
    hasTerm (getB s' s'.cur) = true := by
  induction l generalizing s with
  | nil => simp at hany
  | cons st rest ih =>
      simp only [genStmtList] at h
      obtain ⟨s₁, h₁, h₂⟩ := bind_ok h
      have hcur₁ : s₁.cur < s₁.blocks.length := (genStmt_step st s s₁ hcur h₁).curlt
      by_cases hr : rest.any Stmt.isReturn = true
      · exact ih s₁ hcur₁ h₂ hr
      · have hst : Stmt.isReturn st = true := by
          cases hb : Stmt.isReturn st
          · rw [List.any_cons, hb] at hany
            simp only [Bool.false_or] at hany
            exact absurd hany hr
          · rfl
        cases st with
        | sreturn v =>
            have ht₁ : hasTerm (getB s₁ s₁.cur) = true := by
              cases v with
              | some e =>
                  simp only [genStmt] at h₁
                  obtain ⟨p, hE, hT⟩ := bind_ok h₁
                  obtain ⟨w, sE⟩ := p
                  have EE := genExpr_step e s w sE hE
                  have hcE : sE.cur < sE.blocks.length := by
                    rw [EE.len, EE.cur]
                    exact hcur
                  have hc : s₁.cur = sE.cur := by rw [(emitTerm_ok hT).2, emit_cur]
                  rw [hc]
                  exact emitTerm_hasTerm (by rfl) hcE hT
              | none =>
                  simp only [genStmt] at h₁
                  have hc : s₁.cur = s.cur := by rw [(emitTerm_ok h₁).2, emit_cur]
                  rw [hc]
                  exact emitTerm_hasTerm (by rfl) hcur h₁
            exact (genStmtList_keepTerm rest s₁ s' hcur₁ ht₁ h₂).2
        | varDecl a b c => simp [Stmt.isReturn] at hst
        | assign a b => simp [Stmt.isReturn] at hst
        | sif a b c => simp [Stmt.isReturn] at hst
        | swhile a b => simp [Stmt.isReturn] at hst
        | sfor a b c d => simp [Stmt.isReturn] at hst
        | sprint a => simp [Stmt.isReturn] at hst
        | sinput a => simp [Stmt.isReturn] at hst
        | sexpr a => simp [Stmt.isReturn] at hst

/-- After parameter prologue and body generation from the fresh one-block
state, every block other than the final current one is terminated, the
one-terminator bound holds, and a top-level return terminates the final
block as well. -/
theorem genFunction_body (s₂ : GenState) (hb2 : s₂.blocks = [[]]) (hc2 : s₂.cur = 0)
    (ps : List (Param × LType)) (body : List Stmt) (s₄ : GenState)
    (hbody : genStmtList (genParamAllocas s₂ ps 0) body = .ok s₄) :
    (∀ j, j < s₄.blocks.length → j ≠ s₄.cur → hasTerm (getB s₄ j) = true) ∧
    oneMax s₄ ∧ s₄.cur < s₄.blocks.length ∧
    (body.any Stmt.isReturn = true → hasTerm (getB s₄ s₄.cur) = true) := by
  have hlen₂ : s₂.blocks.length = 1 := by rw [hb2]; rfl
  have hcur₂ : s₂.cur < s₂.blocks.length := by rw [hc2]; omega
  have hone₂ : oneMax s₂ := by
    intro j
    unfold getB
    rw [hb2]
    cases j with
    | zero => simp [countTerm]
    | succ n => simp [countTerm]
  have E := genParamAllocas_step ps 0 s₂
  have hcur₃ : (genParamAllocas s₂ ps 0).cur < (genParamAllocas s₂ ps 0).blocks.length := by
    rw [E.len, E.cur]
    exact hcur₂
  have S := genStmtList_step body _ s₄ hcur₃ hbody
  have S23 := stmtStep_trans hcur₂ (stmtStep_of_exprStep hcur₂ E) S
  refine ⟨?_, S23.onemax hone₂, S23.curlt, ?_⟩
  · intro j hj hne
    by_cases hj2 : j < s₂.blocks.length
    · have hj0 : j = 0 := by omega
      cases S23.curmv with
      | inl he =>
          exact absurd (show j = s₄.cur by rw [hj0, he, hc2]) hne
      | inr hge =>
          have hne2 : s₄.cur ≠ s₂.cur := by rw [hc2]; omega
          have hterm := S23.oldtm hne2
          rw [hj0, ← hc2]
          exact hterm
    · exact S23.newtm j (by omega) hj hne
  · intro hret
    exact genStmtList_retTerm body _ s₄ hcur₃ hbody hret

/-- `generate_function` appends exactly one function to the module and
every basic block of that function holds exactly one terminator. -/
theorem genFunction_funcs (s : GenState) (f : FunctionDef) (s' : GenState)
    (h : genFunction s f = .ok s') :
    ∃ g : LFunc, s'.module.funcs = s.module.funcs ++ [g] ∧
      ∀ bb ∈ g.blocks, countTerm bb = 1 := by
  simp only [genFunction] at h
  obtain ⟨pt, hpt, h⟩ := bind_ok h
  obtain ⟨rt, hrt, h⟩ := bind_ok h
  obtain ⟨s₄, hbody, h⟩ := bind_ok h
  obtain ⟨hall, hone, hcur₄, hret⟩ := genFunction_body _ (by rfl) (by rfl) _ f.body s₄ hbody
  have hpres₄ : s₄.module.funcs = s.module.funcs := by
    rw [genStmtList_funcs f.body _ s₄ hbody, genParamAllocas_funcs]
    try rfl
  have core : ∀ (s₅ : GenState),
      (∀ j, j < s₅.blocks.length → hasTerm (getB s₅ j) = true) →
      oneMax s₅ → s₅.module.funcs = s.module.funcs → ∀ (nm : String),
      ∃ g : LFunc,
        s₅.module.funcs ++ [LFunc.mk nm rt pt s₅.blocks] = s.module.funcs ++ [g] ∧
        ∀ bb ∈ g.blocks, countTerm bb = 1 := by
    intro s₅ hf1 hf2 hpres nm
    refine ⟨⟨nm, rt, pt, s₅.blocks⟩, by rw [hpres], ?_⟩
    intro bb hbb
    obtain ⟨n, hn⟩ := List.mem_iff_get?.mp hbb
    have hnlt : n < s₅.blocks.length := by
      by_contra hge
      push_neg at hge
      rw [List.get?_eq_none.mpr hge] at hn
      cases hn
    have hgb : getB s₅ n = bb := by
      unfold getB
      rw [hn]
      rfl
    have h1 := hf1 n hnlt
    have h2 := hf2 n
    rw [hgb] at h1 h2
    have h3 : 0 < countTerm bb := by
      by_contra hz
      push_neg at hz
      have hz0 : countTerm bb = 0 := by omega
      rw [countTerm_noTerm hz0] at h1
      cases h1
    omega
  have key : ∀ (i : Instr) (s₅ : GenState),
      emitTerm s₄ i = .ok s₅ → i.isTerminator = true →
      (∀ j, j < s₅.blocks.length → hasTerm (getB s₅ j) = true) ∧ oneMax s₅ := by
    intro i s₅ he hti
    obtain ⟨hno, hrw⟩ := emitTerm_ok he
    constructor
    · intro j hj
      have hj' : j < s₄.blocks.length := by
        rw [hrw, emit_len] at hj
        exact hj
      by_cases hc : j = s₄.cur
      · rw [hc]
        exact emitTerm_hasTerm hti hcur₄ he
      · rw [hrw, getB_emit_ne s₄ i j hc]
        exact hall j hj' hc
    · exact emitTerm_onemax he hone
  split at h
  · next hretb =>
      obtain ⟨s₅, hdef, h⟩ := bind_ok h
      have hs : s₄ = s₅ := Except.ok.inj hdef
      subst hs
      rw [← Except.ok.inj h]
      refine core s₄ ?_ hone hpres₄ _
      intro j hj
      by_cases hc : j = s₄.cur
      · rw [hc]
        exact hret hretb
      · exact hall j hj hc
  · next hretb =>
      split at h
      all_goals
        obtain ⟨s₅, hdef, h⟩ := bind_ok h
        rw [← Except.ok.inj h]
        obtain ⟨hf1, hf2⟩ := key _ s₅ hdef (by rfl)
        exact core s₅ hf1 hf2 (by rw [emitTerm_funcs hdef]; exact hpres₄) _

/-- Every function present after `genProgram` either was already in the
module or has the one-terminator-per-block property. -/
theorem genProgram_funcs (fs : List FunctionDef) (s s' : GenState)
    (h : genProgram s fs = .ok s') :
    ∀ g ∈ s'.module.funcs, g ∈ s.module.funcs ∨ ∀ bb ∈ g.blocks, countTerm bb = 1 := by
  induction fs generalizing s with
  | nil =>
      have hs : s = s' := Except.ok.inj h
      subst hs
      intro g hg
      exact Or.inl hg
  | cons f fs ih =>
      simp only [genProgram] at h
      obtain ⟨s₁, h₁, h₂⟩ := bind_ok h
      intro g hg
      obtain ⟨g₁, hfeq, hgood⟩ := genFunction_funcs s f s₁ h₁
      rcases ih s₁ h₂ g hg with hmem | hnew
      · rw [hfeq] at hmem
        rcases List.mem_append.mp hmem with hL | hR
        · exact Or.inl hL
        · have hgg : g = g₁ := by simpa using hR
          exact Or.inr (by rw [hgg]; exact hgood)
      · exact Or.inr hnew

/-- The emitted module for the C1 witness program. -/
def c1Module : LModule :=
  match generate c1Program initGenState with
  | .ok m => m
  | .error _ => ⟨[], [], []⟩

/-- C1: whenever `generate` succeeds, every basic block of every function
in the emitted module holds exactly one terminator instruction: structured
statements guard-branch every dangling block, a default return seals the
final block when no top-level return exists, and llvmlite's terminator
assertion (modelled in `emitTerm`) makes a second terminator in one block
impossible. -/
theorem c1_every_block_exactly_one_terminator (p : Program) (m : LModule)
    (h : generate p initGenState = .ok m) :
    ∀ g ∈ m.funcs, ∀ bb ∈ g.blocks, countTerm bb = 1 := by
  simp only [generate] at h
  obtain ⟨s', h₁, h₂⟩ := bind_ok h
  intro g hg
  have hm : m = s'.module := (Except.ok.inj h₂).symm
  rw [hm] at hg
  rcases genProgram_funcs p.functions initGenState s' h₁ g hg with hmem | hgood
  · simp [initGenState] at hmem
  · exact hgood

/-- The entry function of the C1 witness module and its first block. -/
def c1Func : LFunc := c1Module.funcs.headD ⟨"", .i32, [], []⟩

def c1Block : List Instr := c1Func.blocks.headD []

theorem c1_every_block_exactly_one_terminator_witness :
    countTerm c1Block = 1 :=
  c1_every_block_exactly_one_terminator c1Program c1Module (by rfl) c1Func (by decide)
    c1Block (by decide)

/-! ## C3 amended: the synthesized default return per return type -/

/-- The default return instruction `generate_function` synthesizes for
each LLVM return type: zero for the integer types, 0.0 for double, and a
value-less `ret void` for the string pointer type. -/
def defaultReturn : LType → Instr
  | .i32 => .ret (.cInt .i32 0)
  | .i1 => .ret (.cInt .i1 0)
  | .i64 => .ret (.cInt .i64 0)
  | .double => .ret (.cDouble 0)
  | .ptr => .retVoid

theorem getB_get? (s : GenState) (j : Nat) (h : j < s.blocks.length) :
    s.blocks.get? j = some (getB s j) := by
  unfold getB
  cases hg : s.blocks.get? j with
  | none => exact absurd (List.get?_eq_none.mp hg) (by omega)
  | some bb => rfl

/-- C3 (amended): when a function body contains no top-level return,
`generate_function` appends the function with a synthesized terminator
that is the zero value only for `int` (i32), boolean (i1) and float
(double) return types, while a string-pointer return type receives a
value-less `ret void` instead of a zero value. -/
theorem c3_default_return_matches_type (s : GenState) (f : FunctionDef) (s' : GenState)
    (h : genFunction s f = .ok s') (hnoret : f.body.any Stmt.isReturn = false) :
    ∃ g : LFunc, s'.module.funcs = s.module.funcs ++ [g] ∧
      getLlvmType f.returnType = .ok g.retTy ∧
      ∃ j, j < g.blocks.length ∧ ∃ pre,
        g.blocks.get? j = some (pre ++ [defaultReturn g.retTy]) := by
  simp only [genFunction] at h
  obtain ⟨pt, hpt, h⟩ := bind_ok h
  obtain ⟨rt, hrt, h⟩ := bind_ok h
  obtain ⟨s₄, hbody, h⟩ := bind_ok h
  obtain ⟨hall, hone, hcur₄, hret⟩ := genFunction_body _ (by rfl) (by rfl) _ f.body s₄ hbody
  have hpres₄ : s₄.module.funcs = s.module.funcs := by
    rw [genStmtList_funcs f.body _ s₄ hbody, genParamAllocas_funcs]
    try rfl
  have core : ∀ (s₅ : GenState) (i : Instr), emitTerm s₄ i = .ok s₅ →
      s₅.module.funcs = s.module.funcs ∧
      ∃ j, j < s₅.blocks.length ∧ ∃ pre, s₅.blocks.get? j = some (pre ++ [i]) := by
    intro s₅ i he
    obtain ⟨hno, hrw⟩ := emitTerm_ok he
    refine ⟨by rw [emitTerm_funcs he]; exact hpres₄, s₄.cur, ?_, getB s₄ s₄.cur, ?_⟩
    · rw [hrw, emit_len]
      exact hcur₄
    · have hlt : s₄.cur < (emit s₄ i).blocks.length := by
        rw [emit_len]
        exact hcur₄
      rw [hrw, getB_get? (emit s₄ i) s₄.cur hlt, getB_emit_self s₄ i hcur₄]
  split at h
  · next hretb => simp [hnoret] at hretb
  · next hretb =>
      split at h
      all_goals
        obtain ⟨s₅, hdef, h⟩ := bind_ok h
        obtain ⟨hfp, j, hj, pre, hblk⟩ := core s₅ _ hdef
        rw [← Except.ok.inj h]
        refine ⟨⟨(if f.name = MAIN_FUNCTION_NAME then "main" else f.name), _, pt, s₅.blocks⟩,
          ?_, hrt, j, hj, pre, hblk⟩
        show s₅.module.funcs ++ [_] = s.module.funcs ++ [_]
        rw [hfp]

/-- The state produced by `generate_function` on the string-returning
empty-bodied entry function. -/
def c3FnState : GenState :=
  match genFunction initGenState ⟨"int", "side", [], []⟩ with
  | .ok st => st
  | .error _ => initGenState

theorem c3_default_return_matches_type_witness :
    ∃ g : LFunc, c3FnState.module.funcs = initGenState.module.funcs ++ [g] ∧
      getLlvmType (FunctionDef.mk "int" "side" [] []).returnType = .ok g.retTy ∧
      ∃ j, j < g.blocks.length ∧ ∃ pre,
        g.blocks.get? j = some (pre ++ [defaultReturn g.retTy]) :=
  c3_default_return_matches_type initGenState ⟨"int", "side", [], []⟩ c3FnState
    (by rfl) (by rfl)

/-! ## C5 amended: while-condition normalization happens exactly for i32 -/

theorem emitVal_cur (s : GenState) (i : Instr) (t : LType) :
    (emitVal s i t).2.cur = s.cur := rfl

theorem emitVal_len (s : GenState) (i : Instr) (t : LType) :
    (emitVal s i t).2.blocks.length = s.blocks.length :=
  emit_len { s with regCounter := s.regCounter + 1 } i

theorem getB_emitVal_self (s : GenState) (i : Instr) (t : LType)
    (h : s.cur < s.blocks.length) :
    getB (emitVal s i t).2 s.cur = getB s s.cur ++ [i] :=
  getB_emit_self { s with regCounter := s.regCounter + 1 } i h

theorem emitVal_fst (s : GenState) (i : Instr) (t : LType) :
    (emitVal s i t).1 = .reg t s.regCounter := rfl

/-- After the statements of a while body, the `cond` block's contents are
not touched any further: the guarded back-branch lands in the body's last
block and the builder moves to `end`. -/
theorem whileCondBlock (body : List Stmt) (s s₇ s₈ s' : GenState) (bb : List Instr)
    (hcur₇ : s₇.cur = s.blocks.length)
    (hlen₇ : s₇.blocks.length = s.blocks.length + 3)
    (hbb : getB s₇ s.blocks.length = bb)
    (h₅ : genStmtList (positionAt s₇ (appendBlock (appendBlock s).2).1) body = .ok s₈)
    (hs' : s' = positionAt (guardBr s₈ (appendBlock s).1)
        (appendBlock (appendBlock (appendBlock s).2).2).1) :
    getB s' s.blocks.length = bb := by
  subst hs'
  have hB : (appendBlock (appendBlock s).2).1 = s.blocks.length + 1 := appendIdx2 s
  have S8 := genStmtList_step body _ s₈
    (by show (appendBlock (appendBlock s).2).1 < s₇.blocks.length; omega) h₅
  have hfr : getB s₈ s.blocks.length = getB s₇ s.blocks.length :=
    S8.frame s.blocks.length (by show s.blocks.length < s₇.blocks.length; omega)
      (by show s.blocks.length ≠ (appendBlock (appendBlock s).2).1; omega)
  have hs₈cur : s.blocks.length ≠ s₈.cur := by
    cases S8.curmv with
    | inl he =>
        rw [he]
        show s.blocks.length ≠ (appendBlock (appendBlock s).2).1
        omega
    | inr hge =>
        have hge' : s₇.blocks.length ≤ s₈.cur := hge
        omega
  show getB (guardBr s₈ (appendBlock s).1) s.blocks.length = bb
  rw [guardBr_getB_ne s₈ _ _ hs₈cur, hfr, hbb]

/-- C5 (amended): `generate_while_loop` evaluates the condition in the
`cond` block and emits the compare-against-zero normalization exactly
when the condition's runtime LLVM type is i32 (the surface int type);
boolean, double and string-pointer conditions are branched on raw. -/
theorem c5_while_condition_normalized_iff_i32 (cond : Expr) (body : List Stmt)
    (s s' : GenState) (hcur : s.cur < s.blocks.length)
    (h : genStmt s (.swhile cond body) = .ok s') :
    ∃ (c : LValue) (pre : List Instr),
      (if c.lty = LType.i32 then
        ∃ k, getB s' s.blocks.length =
          pre ++ [Instr.icmp "!=" c (.cInt .i32 0),
            Instr.cbr (.reg .i1 k) (s.blocks.length + 1) (s.blocks.length + 2)]
      else
        getB s' s.blocks.length =
          pre ++ [Instr.cbr c (s.blocks.length + 1) (s.blocks.length + 2)]) := by
  simp only [genStmt] at h
  obtain ⟨s₄, h₂, h⟩ := bind_ok h
  obtain ⟨p, h₃, h⟩ := bind_ok h
  obtain ⟨cv, s₅⟩ := p
  obtain ⟨s₇, h₄, h⟩ := bind_ok h
  obtain ⟨s₈, h₅, h⟩ := bind_ok h
  dsimp only at h₃ h₄ h
  obtain ⟨hno₂, hs₄⟩ := emitTerm_ok h₂
  have hlen₄ : s₄.blocks.length = s.blocks.length + 3 := by
    rw [hs₄, emit_len, append3_len]
  have hbT : getB s₄ s.blocks.length = [] := by
    have h1 := appendBlock_len s
    have h2 := appendBlock_len (appendBlock s).2
    rw [hs₄, getB_emit_ne _ _ _ (by rw [append3_cur]; omega),
      getB_appendBlock_lt (appendBlock (appendBlock s).2).2 s.blocks.length (by omega),
      getB_appendBlock_lt (appendBlock s).2 s.blocks.length (by omega),
      getB_appendBlock_len s]
  have E1 := genExpr_step cond _ cv s₅ h₃
  have hc₅ : s₅.cur = s.blocks.length := E1.cur
  have hlen₅ : s₅.blocks.length = s₄.blocks.length := E1.len
  obtain ⟨Δ, hΔraw, hΔz⟩ := E1.app
  have hΔ : getB s₅ s.blocks.length = getB s₄ s.blocks.length ++ Δ := hΔraw
  have hcond₅ : getB s₅ s.blocks.length = Δ := by
    rw [hΔ, hbT, List.nil_append]
  by_cases hty : cv.lty = LType.i32
  · rw [if_pos hty] at h₄
    obtain ⟨hno₄, hs₇⟩ := emitTerm_ok h₄
    have hQ : getB (emitVal s₅ (.icmp "!=" cv (.cInt .i32 0)) .i1).2 s.blocks.length
        = Δ ++ [Instr.icmp "!=" cv (.cInt .i32 0)] := by
      have hstep := getB_emitVal_self s₅ (.icmp "!=" cv (.cInt .i32 0)) .i1 (by omega)
      rw [hc₅] at hstep
      rw [hstep, hcond₅]
    have hcur₇ : s₇.cur = s.blocks.length := by
      rw [hs₇, emit_cur, emitVal_cur]
      exact hc₅
    have hlen₇ : s₇.blocks.length = s.blocks.length + 3 := by
      rw [hs₇, emit_len, emitVal_len]
      omega
    have hbb : getB s₇ s.blocks.length
        = (Δ ++ [Instr.icmp "!=" cv (.cInt .i32 0)])
          ++ [Instr.cbr (emitVal s₅ (.icmp "!=" cv (.cInt .i32 0)) .i1).1
              (appendBlock (appendBlock s).2).1
              (appendBlock (appendBlock (appendBlock s).2).2).1] := by
      have hstep := getB_emit_self (emitVal s₅ (.icmp "!=" cv (.cInt .i32 0)) .i1).2
        (.cbr (emitVal s₅ (.icmp "!=" cv (.cInt .i32 0)) .i1).1
          (appendBlock (appendBlock s).2).1
          (appendBlock (appendBlock (appendBlock s).2).2).1)
        (by
          rw [emitVal_len, emitVal_cur]
          omega)
      rw [emitVal_cur, hc₅] at hstep
      rw [hs₇, hstep, hQ]
    refine ⟨cv, Δ, ?_⟩
    rw [if_pos hty]
    refine ⟨s₅.regCounter, ?_⟩
    have hfin := whileCondBlock body s s₇ s₈ s' _ hcur₇ hlen₇ hbb h₅
      ((Except.ok.inj h).symm)
    rw [hfin, emitVal_fst, appendIdx2 s, appendIdx3 s]
    simp
  · rw [if_neg hty] at h₄
    dsimp only at h₄
    obtain ⟨hno₄, hs₇⟩ := emitTerm_ok h₄
    have hcur₇ : s₇.cur = s.blocks.length := by
      rw [hs₇, emit_cur]
      exact hc₅
    have hlen₇ : s₇.blocks.length = s.blocks.length + 3 := by
      rw [hs₇, emit_len]
      omega
    have hbb : getB s₇ s.blocks.length
        = Δ ++ [Instr.cbr cv (appendBlock (appendBlock s).2).1
            (appendBlock (appendBlock (appendBlock s).2).2).1] := by
      have hstep : getB (emit s₅ (.cbr cv (appendBlock (appendBlock s).2).1
          (appendBlock (appendBlock (appendBlock s).2).2).1)) s₅.cur
          = getB s₅ s₅.cur ++ [Instr.cbr cv (appendBlock (appendBlock s).2).1
              (appendBlock (appendBlock (appendBlock s).2).2).1] :=
        getB_emit_self s₅ _ (by omega)
      rw [hc₅] at hstep
      rw [hs₇, hstep, hcond₅]
    refine ⟨cv, Δ, ?_⟩
    rw [if_neg hty]
    have hfin := whileCondBlock body s s₇ s₈ s' _ hcur₇ hlen₇ hbb h₅
      ((Except.ok.inj h).symm)
    rw [hfin, appendIdx2 s, appendIdx3 s]

/-- A one-block builder state for the C5 witness. -/
def c5WitState : GenState := { initGenState with blocks := [[]], cur := 0 }

/-- The state after generating `while (1) {}` from the witness state. -/
def c5WitResult : GenState :=
  match genStmt c5WitState (.swhile (.lit (.vInt 1)) []) with
  | .ok st => st
  | .error _ => c5WitState

theorem c5_while_condition_normalized_iff_i32_witness :
    ∃ (c : LValue) (pre : List Instr),
      (if c.lty = LType.i32 then
        ∃ k, getB c5WitResult c5WitState.blocks.length =
          pre ++ [Instr.icmp "!=" c (.cInt .i32 0),
            Instr.cbr (.reg .i1 k) (c5WitState.blocks.length + 1)
              (c5WitState.blocks.length + 2)]
      else
        getB c5WitResult c5WitState.blocks.length =
          pre ++ [Instr.cbr c (c5WitState.blocks.length + 1)
            (c5WitState.blocks.length + 2)]) :=
  c5_while_condition_normalized_iff_i32 (.lit (.vInt 1)) [] c5WitState c5WitResult
    (by decide) (by rfl)

end ConfucIO
